import Mathlib

/-!
# go-future: a single-assignment future cell and a multi-signal wait helper

Shallow embedding of `future.go`.

* A `Future T` is the pair of atomic pointers `vp` (value pointer) and `dp`
  (done pointer).  A pointer is `none` when it is `nil`.  The value a non-nil
  `vp` points to is never written after publication, so `vp` is modelled by the
  value itself; likewise a non-nil `dp` is modelled by the channel it points to.
* Channels live in the run-time heap: `World.chans` counts the channels that
  `make(chan struct{})` has allocated so far (a channel is named by its
  allocation index) and `World.closed` lists the channels on which `close` has
  been executed.
* Every method is given twice: as a function that runs the whole method body
  without interruption, and as the thread transition `step` that executes one
  atomic action of the body at a time, so that arbitrary interleavings of
  several calls can be explored with `exec`.
-/

namespace GoFuture

/-- A channel of type `chan struct{}`, named by its allocation index. -/
abbrev Chan := Nat

/-- The run-time panics a method body can raise. -/
inductive Panic where
  | alreadyResolved        -- panic("future: already resolved")
  | closeOfClosedChannel   -- close of a closed channel
  | nilDereference         -- dereference of a nil pointer
  deriving DecidableEq, Repr

/-- Outcome of running a method body: it returns, it panics, or it is parked on
a channel receive that is not ready. -/
inductive Res (α : Type) where
  | ret (a : α)
  | panic (p : Panic)
  | blocked
  deriving DecidableEq, Repr

/-- The struct `Future[T]`: value pointer and done pointer. -/
structure Future (T : Type) where
  vp : Option T
  dp : Option Chan
  deriving DecidableEq, Repr

/-- One future together with the channel heap it lives in. -/
structure World (T : Type) where
  f : Future T
  chans : Nat
  closed : List Chan
  deriving DecidableEq, Repr

variable {T : Type}

/-! ## Atomic actions -/

/-- The zero value `&Future[T]{}` in a heap without channels. -/
def empty : World T := ⟨⟨none, none⟩, 0, []⟩

/-- The action `f.vp.CompareAndSwap(nil, &v)`. -/
def vpCAS (v : T) (w : World T) : Bool × World T :=
  match w.f.vp with
  | none => (true, { w with f := { w.f with vp := some v } })
  | some _ => (false, w)

/-- The action `f.dp.CompareAndSwap(nil, &d)`; the source discards its result. -/
def dpCAS (d : Chan) (w : World T) : World T :=
  match w.f.dp with
  | none => { w with f := { w.f with dp := some d } }
  | some _ => w

/-- The action `make(chan struct{})`: a fresh, open channel. -/
def makeChan (w : World T) : Chan × World T :=
  (w.chans, { w with chans := w.chans + 1 })

/-- Whether `close` has been executed on channel `c`. -/
def isClosed (w : World T) (c : Chan) : Bool := decide (c ∈ w.closed)

/-- The action `close(c)`: panics on a channel that is already closed. -/
def closeChan (c : Chan) (w : World T) : Res Unit × World T :=
  if isClosed w c then (.panic .closeOfClosedChannel, w)
  else (.ret (), { w with closed := c :: w.closed })

/-- The action `<-c` on a channel nobody sends on: ready exactly when `c` is closed. -/
def recv (c : Chan) (w : World T) : Res Unit :=
  if isClosed w c then .ret () else .blocked

/-! ## The methods, run without interruption -/

/-- Constructor `Resolved(v)`: store the value, make a channel, close it, store it. -/
def Resolved (v : T) : World T :=
  let w0 : World T := { (empty : World T) with f := { vp := some v, dp := none } }
  let (d, w1) := makeChan w0
  let w2 := (closeChan d w1).2
  { w2 with f := { w2.f with dp := some d } }

/-- Method `done`: return the published channel, creating and publishing one if absent. -/
def done (w : World T) : Res Chan × World T :=
  match w.f.dp with
  | some c => (.ret c, w)
  | none =>
    let (d, w1) := makeChan w
    let w2 := dpCAS d w1
    match w2.f.dp with
    | some c => (.ret c, w2)
    | none => (.panic .nilDereference, w2)

/-- Method `TryResolve(v)`. -/
def TryResolve (v : T) (w : World T) : Res Bool × World T :=
  match vpCAS v w with
  | (false, w1) => (.ret false, w1)
  | (true, w1) =>
    match done w1 with
    | (.ret c, w2) =>
      match closeChan c w2 with
      | (.ret (), w3) => (.ret true, w3)
      | (.panic p, w3) => (.panic p, w3)
      | (.blocked, w3) => (.blocked, w3)
    | (.panic p, w2) => (.panic p, w2)
    | (.blocked, w2) => (.blocked, w2)

/-- Method `Resolve(v)`. -/
def Resolve (v : T) (w : World T) : Res Unit × World T :=
  match TryResolve v w with
  | (.ret true, w1) => (.ret (), w1)
  | (.ret false, w1) => (.panic .alreadyResolved, w1)
  | (.panic p, w1) => (.panic p, w1)
  | (.blocked, w1) => (.blocked, w1)

/-- Method `Wait`: receive on `f.done()`. -/
def Wait (w : World T) : Res Unit × World T :=
  match done w with
  | (.ret c, w1) => (recv c w1, w1)
  | (.panic p, w1) => (.panic p, w1)
  | (.blocked, w1) => (.blocked, w1)

/-- Method `Get`. -/
def Get (w : World T) : Res T × World T :=
  match w.f.vp with
  | some v => (.ret v, w)
  | none =>
    match Wait w with
    | (.ret (), w1) =>
      match w1.f.vp with
      | some v => (.ret v, w1)
      | none => (.panic .nilDereference, w1)
    | (.panic p, w1) => (.panic p, w1)
    | (.blocked, w1) => (.blocked, w1)

/-- Method `Done`. -/
def Done (w : World T) : Res Chan × World T := done w

/-- Test helper `IsDone`: a `select` on `f.Done()` with a `default` branch. -/
def IsDone (w : World T) : Res Bool × World T :=
  match Done w with
  | (.ret c, w1) => (.ret (isClosed w1 c), w1)
  | (.panic p, w1) => (.panic p, w1)
  | (.blocked, w1) => (.blocked, w1)

/-! ## The methods, one atomic action at a time -/

/-- A call of one of the public methods. -/
inductive Call (T : Type) where
  | Resolve (v : T)
  | TryResolve (v : T)
  | Get
  | Wait
  | Done
  deriving DecidableEq, Repr

/-- What a finished call hands back. -/
inductive Val (T : Type) where
  | unit
  | bool (b : Bool)
  | val (v : T)
  | chan (c : Chan)
  deriving DecidableEq, Repr

/-- Control point of a running call.  The points `dLoad` to `dReload` are the
four actions of the body of `done`; `gotChan c` is the point where `done` has
returned `c` to its caller. -/
inductive PC (T : Type) where
  | entry                      -- the call has not executed any action yet
  | dLoad                      -- next: `f.dp.Load()` at the top of `done`
  | dMake                      -- next: `d := make(chan struct{})`
  | dCAS (d : Chan)            -- next: `f.dp.CompareAndSwap(nil, &d)`
  | dReload                    -- next: `*f.dp.Load()`
  | gotChan (c : Chan)         -- next: `close(c)`, `<-c` or `return c`
  | vReload                    -- next: `*f.vp.Load()` at the end of `Get`
  | fin (r : Res (Val T))      -- the call has returned or panicked
  deriving DecidableEq, Repr

/-- A thread: the call it executes and its control point. -/
structure Thread (T : Type) where
  call : Call T
  pc : PC T
  deriving DecidableEq, Repr

/-- A thread that is about to begin the call `c`. -/
def Thread.start (c : Call T) : Thread T := ⟨c, .entry⟩

/-- The action `f.dp.Load()` at the top of `done`. -/
def stepDLoad (w : World T) (t : Thread T) : World T × Thread T :=
  match w.f.dp with
  | some c => (w, { t with pc := .gotChan c })
  | none => (w, { t with pc := .dMake })

/-- One atomic action of thread `t` in world `w`; `none` when the thread has
finished or is parked on a receive that is not ready. -/
def step (w : World T) (t : Thread T) : Option (World T × Thread T) :=
  match t.pc with
  | .fin _ => none
  | .entry =>
    match t.call with
    | .Resolve v =>
      match vpCAS v w with
      | (true, w1) => some (w1, { t with pc := .dLoad })
      | (false, w1) => some (w1, { t with pc := .fin (.panic .alreadyResolved) })
    | .TryResolve v =>
      match vpCAS v w with
      | (true, w1) => some (w1, { t with pc := .dLoad })
      | (false, w1) => some (w1, { t with pc := .fin (.ret (.bool false)) })
    | .Get =>
      match w.f.vp with
      | some v => some (w, { t with pc := .fin (.ret (.val v)) })
      | none => some (w, { t with pc := .dLoad })
    | .Wait => some (stepDLoad w t)
    | .Done => some (stepDLoad w t)
  | .dLoad => some (stepDLoad w t)
  | .dMake =>
    match makeChan w with
    | (d, w1) => some (w1, { t with pc := .dCAS d })
  | .dCAS d => some (dpCAS d w, { t with pc := .dReload })
  | .dReload =>
    match w.f.dp with
    | some c => some (w, { t with pc := .gotChan c })
    | none => some (w, { t with pc := .fin (.panic .nilDereference) })
  | .gotChan c =>
    match t.call with
    | .Resolve _ =>
      match closeChan c w with
      | (.ret (), w1) => some (w1, { t with pc := .fin (.ret .unit) })
      | (.panic p, w1) => some (w1, { t with pc := .fin (.panic p) })
      | (.blocked, _) => none
    | .TryResolve _ =>
      match closeChan c w with
      | (.ret (), w1) => some (w1, { t with pc := .fin (.ret (.bool true)) })
      | (.panic p, w1) => some (w1, { t with pc := .fin (.panic p) })
      | (.blocked, _) => none
    | .Get =>
      match recv c w with
      | .ret () => some (w, { t with pc := .vReload })
      | .panic p => some (w, { t with pc := .fin (.panic p) })
      | .blocked => none
    | .Wait =>
      match recv c w with
      | .ret () => some (w, { t with pc := .fin (.ret .unit) })
      | .panic p => some (w, { t with pc := .fin (.panic p) })
      | .blocked => none
    | .Done => some (w, { t with pc := .fin (.ret (.chan c)) })
  | .vReload =>
    match w.f.vp with
    | some v => some (w, { t with pc := .fin (.ret (.val v)) })
    | none => some (w, { t with pc := .fin (.panic .nilDereference) })

/-- A future shared by a list of threads. -/
structure Sys (T : Type) where
  w : World T
  ts : List (Thread T)
  deriving DecidableEq, Repr

/-- The scheduler lets thread `i` perform one action; nothing happens when
there is no such thread or it cannot move. -/
def sysStep (s : Sys T) (i : Nat) : Sys T :=
  match s.ts[i]? with
  | none => s
  | some t =>
    match step s.w t with
    | none => s
    | some (w1, t1) => ⟨w1, s.ts.set i t1⟩

/-- Run a schedule: the list of thread indices in the order their actions take effect. -/
def exec (s : Sys T) (sched : List Nat) : Sys T := sched.foldl sysStep s

/-- The calls `cs` about to start on the future of world `w`. -/
def spawn (w : World T) (cs : List (Call T)) : Sys T := ⟨w, cs.map Thread.start⟩

/-- A world in which the future has just been constructed: empty or pre-resolved. -/
def Initial (w : World T) : Prop := w = empty ∨ ∃ v, w = Resolved v

/-- The states of the future that some interleaving of some calls can produce. -/
def Reachable (w : World T) : Prop :=
  ∃ w0 cs sched, Initial w0 ∧ (exec (spawn w0 cs) sched).w = w

/-- Outcome of thread `i`, once it has finished. -/
def outcome (s : Sys T) (i : Nat) : Option (Res (Val T)) :=
  match s.ts[i]? with
  | some ⟨_, .fin r⟩ => some r
  | _ => none

/-! ## The multi-wait helper -/

/-- A cancellation context, as far as `Await` looks at it: `ctx.Err()` is non-nil
and the channel `ctx.Done()` is closed exactly when the context is cancelled. -/
structure Context where
  cancelled : Bool
  deriving DecidableEq, Repr

/-- The value `ctx.Err()`: `none` is `nil`. -/
def Context.Err (ctx : Context) : Option Unit := if ctx.cancelled then some () else none

/-- Whether a receive on `ctx.Done()` is ready. -/
def Context.doneReady (ctx : Context) : Bool := ctx.cancelled

/-- Where a call of `Await` stands: it has returned, or it is parked in the
`select` whose channel case is the head of `chs`. -/
inductive Status where
  | returned (b : Bool)
  | waiting (chs : List Chan)
  deriving DecidableEq, Repr

/-- Function `Await(ctx, chs...)` in an environment where `fired c` tells whether
channel `c` is closed.  When both cases of a `select` are ready the run time
picks one of them: `pick k` says whether the `select` at recursion depth `k`
takes the `ctx.Done()` case. -/
def Await (ctx : Context) (fired : Chan → Bool) (pick : Nat → Bool) : List Chan → Status
  | [] => .returned (ctx.Err == none)
  | c :: rest =>
    match ctx.doneReady, fired c with
    | false, false => .waiting (c :: rest)
    | true, false => .returned false
    | false, true => Await ctx fired (fun k => pick (k + 1)) rest
    | true, true =>
      if pick 0 then .returned false else Await ctx fired (fun k => pick (k + 1)) rest

/-! ## Invariants of the interleaved executions -/

/-- The calls that write the value slot. -/
def Call.isResolver : Call T → Bool
  | .Resolve _ => true
  | .TryResolve _ => true
  | _ => false

/-- The value a resolving call carries. -/
def Call.value? : Call T → Option T
  | .Resolve v => some v
  | .TryResolve v => some v
  | _ => none

/-- What a resolving call reports when it wins / when it loses. -/
def Call.success : Call T → Res (Val T)
  | .Resolve _ => .ret .unit
  | .TryResolve _ => .ret (.bool true)
  | _ => .blocked

/-- What a resolving call reports when the slot was already occupied. -/
def Call.failure : Call T → Res (Val T)
  | .Resolve _ => .panic .alreadyResolved
  | .TryResolve _ => .ret (.bool false)
  | _ => .blocked

/-- A resolver between its successful compare-and-swap and its `close`. -/
def inFlight (t : Thread T) : Bool :=
  t.call.isResolver &&
    match t.pc with
    | .dLoad => true
    | .dMake => true
    | .dCAS _ => true
    | .dReload => true
    | .gotChan _ => true
    | _ => false

/-- The completion signal of the future has been fired. -/
def fired (w : World T) : Prop := ∃ c, w.f.dp = some c ∧ c ∈ w.closed

instance firedDecidable (w : World T) : Decidable (fired w) :=
  match h : w.f.dp with
  | none => isFalse (fun ⟨c, hc, _⟩ => by rw [h] at hc; cases hc)
  | some c =>
    if hm : c ∈ w.closed then isTrue ⟨c, h, hm⟩
    else isFalse (fun ⟨d, hd, hdm⟩ => by rw [h] at hd; cases hd; exact hm hdm)

/-- What must hold of the world when a call has finished with result `r`. -/
def FinOk (w : World T) (c : Call T) (r : Res (Val T)) : Prop :=
  match c with
  | .Resolve v =>
    (r = .ret .unit ∧ w.f.vp = some v ∧ fired w) ∨ (r = .panic .alreadyResolved ∧ w.f.vp ≠ none)
  | .TryResolve v =>
    (r = .ret (.bool true) ∧ w.f.vp = some v ∧ fired w) ∨ (r = .ret (.bool false) ∧ w.f.vp ≠ none)
  | .Get => ∃ v, r = .ret (.val v) ∧ w.f.vp = some v
  | .Wait => r = .ret .unit ∧ fired w
  | .Done => ∃ c, r = .ret (.chan c) ∧ w.f.dp = some c

/-- What must hold of the world at the control point of a thread. -/
def ThreadOk (w : World T) (t : Thread T) : Prop :=
  (∀ d, t.pc = .dCAS d → d < w.chans) ∧
  (t.pc = .dReload → w.f.dp ≠ none) ∧
  (∀ c, t.pc = .gotChan c → w.f.dp = some c) ∧
  (t.pc = .vReload → t.call = .Get ∧ w.f.vp ≠ none) ∧
  (∀ r, t.pc = .fin r → FinOk w t.call r) ∧
  (∀ v, inFlight t = true → t.call.value? = some v → w.f.vp = some v)

/-- The future only moves forward: a written slot keeps its value, a published
channel stays published, channels are never freed or reopened. -/
def World.Le (w w' : World T) : Prop :=
  (∀ v, w.f.vp = some v → w'.f.vp = some v) ∧
  (∀ c, w.f.dp = some c → w'.f.dp = some c) ∧
  w.chans ≤ w'.chans ∧
  (∀ c ∈ w.closed, c ∈ w'.closed)

/-- The part of the invariant that speaks of the world alone. -/
def WorldInv (w : World T) : Prop :=
  (∀ c ∈ w.closed, w.f.dp = some c) ∧
  (w.closed ≠ [] → w.f.vp ≠ none) ∧
  (∀ c, w.f.dp = some c → c < w.chans)

/-- The invariant of every interleaved execution. -/
def Inv (s : Sys T) : Prop :=
  WorldInv s.w ∧
  (∀ (i : Nat) t, s.ts[i]? = some t → ThreadOk s.w t) ∧
  (∀ (i : Nat) t, s.ts[i]? = some t → inFlight t = true → s.w.closed = []) ∧
  (∀ (i j : Nat) t u, s.ts[i]? = some t → s.ts[j]? = some u →
    inFlight t = true → inFlight u = true → i = j)

/-! ## Bookkeeping for races between resolvers -/

/-- An upper bound on the number of actions a call still has to perform. -/
def remaining : PC T → Nat
  | .entry => 7
  | .dLoad => 6
  | .dMake => 5
  | .dCAS _ => 4
  | .dReload => 3
  | .gotChan _ => 2
  | .vReload => 1
  | .fin _ => 0

/-- The bound `remaining` for thread `j` of a system (zero when there is no such thread). -/
def remainingAt (s : Sys T) (j : Nat) : Nat :=
  match s.ts[j]? with
  | some t => remaining t.pc
  | none => 0

/-- A resolver that has not passed its compare-and-swap, or has failed it. -/
def Lost (t : Thread T) : Prop := t.pc = .entry ∨ t.pc = .fin t.call.failure

/-- A resolver whose compare-and-swap took effect. -/
def Won (t : Thread T) : Prop := t.pc ≠ .entry ∧ t.pc ≠ .fin t.call.failure

/-- Thread `i` has won the race among the resolvers `cs`. -/
def RaceInv (cs : List (Call T)) (i : Nat) (s : Sys T) : Prop :=
  s.w.f.vp ≠ none ∧ s.ts.length = cs.length ∧
  ∀ (j : Nat) t, s.ts[j]? = some t →
    cs[j]? = some t.call ∧ t.call.isResolver = true ∧ (j = i → Won t) ∧ (j ≠ i → Lost t)

/-! ## Running one call alone -/

/-- The whole-body function of a call, with its result injected into `Val`. -/
def invoke : Call T → World T → Res (Val T) × World T
  | .Resolve v, w =>
    match Resolve v w with
    | (.ret (), w1) => (.ret .unit, w1)
    | (.panic p, w1) => (.panic p, w1)
    | (.blocked, w1) => (.blocked, w1)
  | .TryResolve v, w =>
    match TryResolve v w with
    | (.ret b, w1) => (.ret (.bool b), w1)
    | (.panic p, w1) => (.panic p, w1)
    | (.blocked, w1) => (.blocked, w1)
  | .Get, w =>
    match Get w with
    | (.ret v, w1) => (.ret (.val v), w1)
    | (.panic p, w1) => (.panic p, w1)
    | (.blocked, w1) => (.blocked, w1)
  | .Wait, w =>
    match Wait w with
    | (.ret (), w1) => (.ret .unit, w1)
    | (.panic p, w1) => (.panic p, w1)
    | (.blocked, w1) => (.blocked, w1)
  | .Done, w =>
    match Done w with
    | (.ret c, w1) => (.ret (.chan c), w1)
    | (.panic p, w1) => (.panic p, w1)
    | (.blocked, w1) => (.blocked, w1)

/-- One call running alone for seven actions, which is as many as any call has. -/
def runSolo (w : World T) (c : Call T) : Sys T := exec (spawn w [c]) (List.replicate 7 0)

/-- What a thread reports: its result when it has finished, `blocked` otherwise. -/
def report (s : Sys T) (i : Nat) : Res (Val T) :=
  match outcome s i with
  | some r => r
  | none => .blocked

/-! ## The state machine that the specification gives for the multi-wait helper -/

/-- The states of the specification's machine for `n` signals: `WAITING_ON(i)`,
`CANCELLED` and `SATISFIED`. -/
inductive WaitState where
  | waitingOn (i : Nat)
  | cancelled
  | satisfied
  deriving DecidableEq, Repr

/-- One transition of the specification's machine, written after the
specification and not after the code.  In `WAITING_ON(i)` with `i < n`: signal
`i` firing advances to `WAITING_ON(i+1)`, cancellation leads to `CANCELLED`,
and when both can happen `pick i` says whether cancellation is taken; when
neither can happen the machine stays.  `WAITING_ON(n)` is `SATISFIED`.
`CANCELLED` and `SATISFIED` are terminal. -/
def specNext (ctx : Context) (fired : Chan → Bool) (pick : Nat → Bool) (chs : List Chan) :
    WaitState → WaitState
  | .waitingOn i =>
    match chs[i]? with
    | none => .satisfied
    | some c =>
      match ctx.cancelled, fired c with
      | false, false => .waitingOn i
      | true, false => .cancelled
      | false, true => .waitingOn (i + 1)
      | true, true => if pick i then .cancelled else .waitingOn (i + 1)
  | .cancelled => .cancelled
  | .satisfied => .satisfied

/-- The machine run for `k` transitions. -/
def specIter (ctx : Context) (fired : Chan → Bool) (pick : Nat → Bool) (chs : List Chan) :
    Nat → WaitState → WaitState
  | 0, s => s
  | k + 1, s => specIter ctx fired pick chs k (specNext ctx fired pick chs s)

/-- The machine run from `WAITING_ON(0)` for `n + 1` transitions, after which it
is in a terminal state or in a state it cannot leave. -/
def specRun (ctx : Context) (fired : Chan → Bool) (pick : Nat → Bool) (chs : List Chan) :
    WaitState :=
  specIter ctx fired pick chs (chs.length + 1) (.waitingOn 0)

/-- What the specification says the helper has done when its machine is in state
`s`: `CANCELLED` returns false, `SATISFIED` returns true, in `WAITING_ON(i)` the
helper waits with the signals from `i` on still to consume. -/
def WaitState.toStatus (chs : List Chan) : WaitState → Status
  | .waitingOn i => .waiting (chs.drop i)
  | .cancelled => .returned false
  | .satisfied => .returned true

/-- The reading of the machine states that the code realises: as `toStatus`,
except that in `SATISFIED` the result is `ctx.Err() == nil`. -/
def WaitState.toStatusChecked (ctx : Context) (chs : List Chan) : WaitState → Status
  | .waitingOn i => .waiting (chs.drop i)
  | .cancelled => .returned false
  | .satisfied => .returned (ctx.Err == none)

/-! ## Bookkeeping for the wake-up of observers -/

/-- A written value slot is either already announced by the fired signal or
belongs to a resolver that is still on its way to the `close`. -/
def Pending (s : Sys T) : Prop :=
  s.w.f.vp ≠ none → fired s.w ∨ ∃ (j : Nat) (t : Thread T), s.ts[j]? = some t ∧ inFlight t = true

/-! ## Basic facts about single actions -/

theorem World.Le.refl (w : World T) : w.Le w :=
  ⟨fun _ h => h, fun _ h => h, Nat.le_refl _, fun _ h => h⟩

theorem World.Le.trans {a b c : World T} (h1 : a.Le b) (h2 : b.Le c) : a.Le c :=
  ⟨fun v h => h2.1 v (h1.1 v h), fun x h => h2.2.1 x (h1.2.1 x h),
   Nat.le_trans h1.2.2.1 h2.2.2.1, fun x h => h2.2.2.2 x (h1.2.2.2 x h)⟩

theorem fired_mono {w w' : World T} (h : w.Le w') (hf : fired w) : fired w' := by
  obtain ⟨c, hc, hm⟩ := hf
  exact ⟨c, h.2.1 c hc, h.2.2.2 c hm⟩

theorem vp_ne_none_mono {w w' : World T} (h : w.Le w') (hne : w.f.vp ≠ none) :
    w'.f.vp ≠ none := by
  cases hv : w.f.vp with
  | none => exact absurd hv hne
  | some v => simp [h.1 v hv]

theorem finOk_mono {w w' : World T} (h : w.Le w') (c : Call T) (r : Res (Val T))
    (hf : FinOk w c r) : FinOk w' c r := by
  cases c <;> simp only [FinOk] at hf ⊢
  · rcases hf with ⟨h1, h2, h3⟩ | ⟨h1, h2⟩
    · exact Or.inl ⟨h1, h.1 _ h2, fired_mono h h3⟩
    · exact Or.inr ⟨h1, vp_ne_none_mono h h2⟩
  · rcases hf with ⟨h1, h2, h3⟩ | ⟨h1, h2⟩
    · exact Or.inl ⟨h1, h.1 _ h2, fired_mono h h3⟩
    · exact Or.inr ⟨h1, vp_ne_none_mono h h2⟩
  · obtain ⟨v, h1, h2⟩ := hf
    exact ⟨v, h1, h.1 _ h2⟩
  · exact ⟨hf.1, fired_mono h hf.2⟩
  · obtain ⟨c, h1, h2⟩ := hf
    exact ⟨c, h1, h.2.1 _ h2⟩

theorem threadOk_mono {w w' : World T} (h : w.Le w') (t : Thread T) (ok : ThreadOk w t) :
    ThreadOk w' t := by
  obtain ⟨o1, o2, o3, o4, o5, o6⟩ := ok
  refine ⟨fun d hd => Nat.lt_of_lt_of_le (o1 d hd) h.2.2.1, ?_, fun c hc => h.2.1 c (o3 c hc),
    fun hp => ⟨(o4 hp).1, vp_ne_none_mono h (o4 hp).2⟩, fun r hr => finOk_mono h _ _ (o5 r hr),
    fun v hf hv => h.1 v (o6 v hf hv)⟩
  intro hp
  have := o2 hp
  cases hd : w.f.dp with
  | none => exact absurd hd this
  | some c => simp [h.2.1 c hd]

theorem inFlight_value {t : Thread T} (h : inFlight t = true) : ∃ v, t.call.value? = some v := by
  rcases t with ⟨c, pc⟩
  cases c <;> simp [inFlight, Call.isResolver, Call.value?] at h ⊢


set_option maxHeartbeats 1000000 in
/-- The effect of one action, seen from the thread that performs it. -/
theorem step_local {w w' : World T} {t t' : Thread T} (h : step w t = some (w', t'))
    (wi : WorldInv w) (ok : ThreadOk w t) (fl : inFlight t = true → w.closed = []) :
    w.Le w' ∧ t'.call = t.call ∧ ThreadOk w' t' ∧ WorldInv w' ∧
    (inFlight t' = true → w'.closed = []) ∧
    (w'.closed ≠ w.closed → inFlight t = true) ∧
    (inFlight t' = true → inFlight t = false → w.f.vp = none) := by
  obtain ⟨k1, k2, k3⟩ := wi
  obtain ⟨o1, o2, o3, o4, o5, o6⟩ := ok
  rcases t with ⟨c, pc⟩
  rcases w with ⟨⟨vp, dp⟩, n, cl⟩
  cases c <;> cases pc <;> cases vp <;> cases dp <;>
    simp [step, stepDLoad, vpCAS, dpCAS, makeChan, closeChan, recv, isClosed] at h
  all_goals (try (obtain ⟨rfl, rfl⟩ := h))
  all_goals (try (simp [inFlight, Call.isResolver, Call.value?, World.Le, ThreadOk, WorldInv,
    FinOk, fired] at *))
  all_goals (try (first | done | omega | tauto | (subst_vars; simp_all; done) | (simp_all; omega)))
  all_goals try
    (subst fl
     simp at h
     obtain ⟨rfl, rfl⟩ := h
     simp_all [inFlight, Call.isResolver, Call.value?, World.Le, ThreadOk, WorldInv, FinOk, fired])
  all_goals (rename_i c v d; by_cases hc : c ∈ cl <;> simp [hc] at h)
  all_goals
    (obtain ⟨rfl, rfl⟩ := h
     simp_all [inFlight, Call.isResolver, Call.value?, World.Le, ThreadOk, WorldInv, FinOk, fired]
     all_goals assumption)

theorem inv_sysStep {s : Sys T} (hs : Inv s) (i : Nat) : Inv (sysStep s i) := by
  unfold sysStep
  cases hti : s.ts[i]? with
  | none => simpa [hti] using hs
  | some t =>
    cases hst : step s.w t with
    | none => simpa [hti, hst] using hs
    | some p =>
      obtain ⟨w1, t1⟩ := p
      simp only [hti, hst]
      obtain ⟨wi, oks, fls, uniq⟩ := hs
      obtain ⟨hle, hcall, ok1, wi1, fl1, hcl, hnew⟩ :=
        step_local hst wi (oks i t hti) (fls i t hti)
      have hlt : i < s.ts.length := by
        rcases Nat.lt_or_ge i s.ts.length with h | h
        · exact h
        · simp [List.getElem?_eq_none h] at hti
      have hget : ∀ (j : Nat) u, (s.ts.set i t1)[j]? = some u →
          (j = i ∧ u = t1) ∨ (j ≠ i ∧ s.ts[j]? = some u) := by
        intro j u hu
        rw [List.getElem?_set] at hu
        by_cases hji : i = j
        · subst hji
          simp [hlt] at hu
          exact Or.inl ⟨rfl, hu.symm⟩
        · simp [hji] at hu
          exact Or.inr ⟨fun h => hji h.symm, hu⟩
      have other : ∀ (j : Nat) u, j ≠ i → s.ts[j]? = some u → inFlight u = true →
          w1.closed = [] ∧ inFlight t1 = false := by
        intro j u hji hu hfu
        have hnt : inFlight t = false := by
          cases hft : inFlight t with
          | false => rfl
          | true => exact absurd (uniq j i u t hu hti hfu hft) hji
        have hcl1 : w1.closed = s.w.closed := by
          by_contra hne
          have := hcl hne
          simp [hnt] at this
        refine ⟨by rw [hcl1]; exact fls j u hu hfu, ?_⟩
        cases hft1 : inFlight t1 with
        | false => rfl
        | true =>
          have hvn := hnew hft1 hnt
          obtain ⟨v, hv⟩ := inFlight_value hfu
          have := (oks j u hu).2.2.2.2.2 v hfu hv
          simp [hvn] at this
      refine ⟨wi1, ?_, ?_, ?_⟩
      · intro j u hu
        rcases hget j u hu with ⟨_, rfl⟩ | ⟨_, h⟩
        · exact ok1
        · exact threadOk_mono hle u (oks j u h)
      · intro j u hu hfu
        rcases hget j u hu with ⟨_, rfl⟩ | ⟨hji, h⟩
        · exact fl1 hfu
        · exact (other j u hji h hfu).1
      · intro j k u x hu hx hfu hfx
        rcases hget j u hu with ⟨rfl, rfl⟩ | ⟨hji, h⟩
        · rcases hget k x hx with ⟨rfl, rfl⟩ | ⟨hki, h'⟩
          · rfl
          · have := (other k x hki h' hfx).2
            simp [hfu] at this
        · rcases hget k x hx with ⟨rfl, rfl⟩ | ⟨hki, h'⟩
          · have := (other j u hji h hfu).2
            simp [hfx] at this
          · exact uniq j k u x h h' hfu hfx

theorem inv_exec {s : Sys T} (hs : Inv s) (sched : List Nat) : Inv (exec s sched) := by
  induction sched generalizing s with
  | nil => exact hs
  | cons i rest ih => exact ih (inv_sysStep hs i)

theorem worldInv_empty : WorldInv (empty : World T) := by
  simp [WorldInv, empty]

theorem worldInv_Resolved (v : T) : WorldInv (Resolved v) := by
  simp [WorldInv, Resolved, empty, makeChan, closeChan, isClosed]

theorem inv_spawn {w : World T} (hw : WorldInv w) (cs : List (Call T)) : Inv (spawn w cs) := by
  have hstart : ∀ (i : Nat) t, (spawn w cs).ts[i]? = some t → t.pc = .entry := by
    intro i t ht
    simp only [spawn, List.getElem?_map] at ht
    cases hc : cs[i]? with
    | none => simp [hc] at ht
    | some c =>
      simp [hc] at ht
      subst ht
      rfl
  have hfl : ∀ (i : Nat) t, (spawn w cs).ts[i]? = some t → inFlight t = false := by
    intro i t ht
    simp [inFlight, hstart i t ht]
  refine ⟨hw, ?_, ?_, ?_⟩
  · intro i t ht
    have := hstart i t ht
    simp [ThreadOk, this, inFlight]
  · intro i t ht hf
    simp [hfl i t ht] at hf
  · intro i j t u ht _ hf
    simp [hfl i t ht] at hf

theorem inv_of_initial {w0 : World T} (h0 : Initial w0) (cs : List (Call T)) (sched : List Nat) :
    Inv (exec (spawn w0 cs) sched) := by
  apply inv_exec
  apply inv_spawn
  rcases h0 with rfl | ⟨v, rfl⟩
  · exact worldInv_empty
  · exact worldInv_Resolved v

theorem reachable_worldInv {w : World T} (h : Reachable w) : WorldInv w := by
  obtain ⟨w0, cs, sched, h0, rfl⟩ := h
  exact (inv_of_initial h0 cs sched).1

/-! ## Races between resolvers -/

theorem sysStep_cases (s : Sys T) (i : Nat) :
    sysStep s i = s ∨
    ∃ t w1 t1, s.ts[i]? = some t ∧ step s.w t = some (w1, t1) ∧
      sysStep s i = ⟨w1, s.ts.set i t1⟩ := by
  unfold sysStep
  cases hti : s.ts[i]? with
  | none => exact Or.inl (by simp)
  | some t =>
    cases hst : step s.w t with
    | none => exact Or.inl (by simp [hst])
    | some p => exact Or.inr ⟨t, p.1, p.2, rfl, by simp [hst], by simp [hst]⟩

theorem getElem?_set_cases {α : Type} (l : List α) (i j : Nat) (a u : α)
    (h : (l.set i a)[j]? = some u) : (j = i ∧ u = a) ∨ (j ≠ i ∧ l[j]? = some u) := by
  rw [List.getElem?_set] at h
  by_cases hji : i = j
  · subst hji
    by_cases hlt : i < l.length
    · simp [hlt] at h
      exact Or.inl ⟨rfl, h.symm⟩
    · simp [hlt] at h
  · simp [hji] at h
    exact Or.inr ⟨fun h => hji h.symm, h⟩

/-- Every action keeps the call and brings the thread closer to its end. -/
theorem step_remaining {w w1 : World T} {t t1 : Thread T} (h : step w t = some (w1, t1)) :
    t1.call = t.call ∧ remaining t1.pc < remaining t.pc := by
  rcases t with ⟨c, pc⟩
  rcases w with ⟨⟨vp, dp⟩, n, cl⟩
  cases c <;> cases pc <;> cases vp <;> cases dp <;>
    simp [step, stepDLoad, vpCAS, dpCAS, makeChan, closeChan, recv, isClosed] at h
  all_goals (try (obtain ⟨rfl, rfl⟩ := h; simp [remaining]))
  all_goals (split at h <;> simp at h <;> obtain ⟨_, rfl⟩ := h <;> simp [remaining])

/-- A resolver that has not finished can always perform its next action. -/
theorem resolver_enabled (w : World T) (t : Thread T) (hr : t.call.isResolver = true)
    (hpc : ∀ r, t.pc ≠ .fin r) : ∃ p, step w t = some p := by
  rcases t with ⟨c, pc⟩
  cases c <;> simp [Call.isResolver] at hr <;> cases pc <;>
    simp [step, stepDLoad, closeChan] at hpc ⊢ <;> (repeat' split) <;> simp
  all_goals (rename_i heq; split at heq <;> simp at heq)

/-- Once the slot is written, a resolver that has won stays a winner and every
other resolver can only fail; the slot itself is not written again. -/
theorem step_race {w w1 : World T} {t t1 : Thread T} (h : step w t = some (w1, t1))
    (hr : t.call.isResolver = true) (hv : w.f.vp ≠ none) :
    w1.f.vp = w.f.vp ∧ (Won t → Won t1) ∧ (Lost t → Lost t1) := by
  rcases t with ⟨c, pc⟩
  rcases w with ⟨⟨vp, dp⟩, n, cl⟩
  cases c <;> simp [Call.isResolver] at hr <;> cases pc <;> cases vp <;> cases dp <;>
    simp [step, stepDLoad, vpCAS, dpCAS, makeChan, closeChan, isClosed] at h hv
  all_goals (try (obtain ⟨rfl, rfl⟩ := h; simp [Won, Lost, Call.failure]))
  all_goals (split at h <;> simp at h <;> rename_i heq <;> split at heq <;> simp at heq <;>
    obtain ⟨rfl, rfl⟩ := heq <;> obtain ⟨rfl, rfl⟩ := h <;> simp [Won, Lost, Call.failure])

theorem sysStep_length (s : Sys T) (k : Nat) : (sysStep s k).ts.length = s.ts.length := by
  rcases sysStep_cases s k with h | ⟨t, w1, t1, _, _, h⟩ <;> simp [h]

theorem exec_length (s : Sys T) (sched : List Nat) : (exec s sched).ts.length = s.ts.length := by
  induction sched generalizing s with
  | nil => rfl
  | cons k rest ih => exact (ih (sysStep s k)).trans (sysStep_length s k)

theorem raceInv_sysStep {cs : List (Call T)} {i : Nat} {s : Sys T} (hs : RaceInv cs i s)
    (k : Nat) : RaceInv cs i (sysStep s k) ∧ (sysStep s k).w.f.vp = s.w.f.vp := by
  rcases sysStep_cases s k with h | ⟨t, w1, t1, hti, hst, h⟩
  · rw [h]; exact ⟨hs, rfl⟩
  · obtain ⟨hv, hlen, hth⟩ := hs
    obtain ⟨hcs, hres, hwon, hlost⟩ := hth k t hti
    obtain ⟨hvp, hw, hl⟩ := step_race hst hres hv
    have hcall := (step_remaining hst).1
    rw [h]
    refine ⟨⟨by simpa [hvp] using hv, by simpa using hlen, ?_⟩, hvp⟩
    intro j u hu
    rcases getElem?_set_cases _ _ _ _ _ hu with ⟨rfl, rfl⟩ | ⟨_, hu'⟩
    · exact ⟨by rw [hcall]; exact hcs, by rw [hcall]; exact hres,
        fun hji => hw (hwon hji), fun hji => hl (hlost hji)⟩
    · exact hth j u hu'

theorem raceInv_exec {cs : List (Call T)} {i : Nat} {s : Sys T} (hs : RaceInv cs i s)
    (sched : List Nat) : RaceInv cs i (exec s sched) ∧ (exec s sched).w.f.vp = s.w.f.vp := by
  induction sched generalizing s with
  | nil => exact ⟨hs, rfl⟩
  | cons k rest ih =>
    obtain ⟨h1, h2⟩ := raceInv_sysStep hs k
    obtain ⟨h3, h4⟩ := ih h1
    exact ⟨h3, h4.trans h2⟩

theorem spawn_getElem? (w : World T) (cs : List (Call T)) (j : Nat) :
    (spawn w cs).ts[j]? = (cs[j]?).map Thread.start := by
  simp [spawn]

/-- The first compare-and-swap on an empty future wins the race. -/
theorem raceInv_first (cs : List (Call T)) (hres : ∀ c ∈ cs, c.isResolver = true)
    (i : Nat) (c : Call T) (v : T) (hc : cs[i]? = some c) (hv : c.value? = some v) :
    RaceInv cs i (sysStep (spawn empty cs) i) ∧
    (sysStep (spawn empty cs) i).w.f.vp = some v := by
  have hti : (spawn (empty : World T) cs).ts[i]? = some (Thread.start c) := by
    rw [spawn_getElem?, hc]; rfl
  have hst : step (empty : World T) (Thread.start c) =
      some (⟨⟨some v, none⟩, 0, []⟩, ⟨c, .dLoad⟩) := by
    cases c <;> simp [Call.value?] at hv <;> subst hv <;>
      simp [step, Thread.start, vpCAS, empty]
  have hsys : sysStep (spawn empty cs) i =
      ⟨⟨⟨some v, none⟩, 0, []⟩, (spawn (empty : World T) cs).ts.set i ⟨c, .dLoad⟩⟩ := by
    have hw : (spawn (empty : World T) cs).w = empty := rfl
    simp [sysStep, hti, hw, hst]
  rw [hsys]
  refine ⟨⟨by simp, by simp [spawn], ?_⟩, rfl⟩
  intro j u hu
  rcases getElem?_set_cases _ _ _ _ _ hu with ⟨rfl, rfl⟩ | ⟨hji, hu'⟩
  · refine ⟨hc, hres c (List.getElem?_mem hc), fun _ => ?_, fun h => absurd rfl h⟩
    cases c <;> simp [Won, Call.failure]
  · rw [spawn_getElem?] at hu'
    cases hcj : cs[j]? with
    | none => simp [hcj] at hu'
    | some cj =>
      simp [hcj] at hu'
      subst hu'
      exact ⟨rfl, hres cj (List.getElem?_mem hcj), fun h => absurd h hji,
        fun _ => Or.inl rfl⟩

theorem remainingAt_sysStep (s : Sys T)
    (hall : ∀ (j : Nat) t, s.ts[j]? = some t → t.call.isResolver = true) (k j : Nat) :
    (∀ (j : Nat) t, (sysStep s k).ts[j]? = some t → t.call.isResolver = true) ∧
    remainingAt (sysStep s k) j ≤ remainingAt s j - (if k = j then 1 else 0) := by
  rcases sysStep_cases s k with h | ⟨t, w1, t1, hti, hst, h⟩
  · rw [h]
    refine ⟨hall, ?_⟩
    by_cases hkj : k = j
    · subst hkj
      suffices hz : remainingAt s k = 0 by simp [hz]
      unfold remainingAt
      cases hti : s.ts[k]? with
      | none => rfl
      | some t =>
        simp only
        by_cases hfin : ∃ r, t.pc = .fin r
        · obtain ⟨r, hr⟩ := hfin
          simp [hr, remaining]
        · exfalso
          obtain ⟨p, hp⟩ := resolver_enabled s.w t (hall k t hti)
            (fun r hr => hfin ⟨r, hr⟩)
          simp [sysStep, hti, hp] at h
          have hlen : k < s.ts.length := by
            rcases Nat.lt_or_ge k s.ts.length with hl | hl
            · exact hl
            · simp [List.getElem?_eq_none hl] at hti
          have h2 := congrArg (fun x => x.ts[k]?) h
          simp [hlen] at h2
          have h3 := @step_remaining T s.w p.1 t p.2 hp
          have hk : s.ts[k] = t := by
            simpa [List.getElem?_eq_getElem hlen] using hti
          rw [h2, hk] at h3
          exact absurd h3.2 (Nat.lt_irrefl _)
    · simp [hkj]
  · obtain ⟨hcall, hlt⟩ := step_remaining hst
    rw [h]
    constructor
    · intro j' u hu
      rcases getElem?_set_cases _ _ _ _ _ hu with ⟨rfl, rfl⟩ | ⟨_, hu'⟩
      · rw [hcall]; exact hall _ t hti
      · exact hall _ u hu'
    · have hlen : k < s.ts.length := by
        rcases Nat.lt_or_ge k s.ts.length with hl | hl
        · exact hl
        · simp [List.getElem?_eq_none hl] at hti
      by_cases hkj : k = j
      · subst hkj
        simp [remainingAt, hti, List.getElem?_set, hlen]
        omega
      · simp [remainingAt, List.getElem?_set, hkj]

theorem remainingAt_exec (s : Sys T)
    (hall : ∀ (j : Nat) t, s.ts[j]? = some t → t.call.isResolver = true)
    (sched : List Nat) (j : Nat) :
    remainingAt (exec s sched) j ≤ remainingAt s j - sched.count j := by
  induction sched generalizing s with
  | nil => simp [exec]
  | cons k rest ih =>
    obtain ⟨hall1, hle⟩ := remainingAt_sysStep s hall k j
    have := ih (sysStep s k) hall1
    have hexec : exec s (k :: rest) = exec (sysStep s k) rest := rfl
    rw [hexec, List.count_cons]
    by_cases hkj : k = j
    · subst hkj
      simp at hle ⊢
      omega
    · have hkj' : (k == j) = false := by simp [hkj]
      simp [hkj] at hle
      simp [hkj']
      omega

theorem remainingAt_spawn (w : World T) (cs : List (Call T)) (j : Nat) :
    remainingAt (spawn w cs) j ≤ 7 := by
  unfold remainingAt
  rw [spawn_getElem?]
  cases cs[j]? <;> simp [Thread.start, remaining]

/-- A system of resolvers in which every thread has been scheduled seven times has finished. -/
theorem resolvers_finish (w : World T) (cs : List (Call T))
    (hres : ∀ c ∈ cs, c.isResolver = true) (sched : List Nat) (j : Nat)
    (hj : j < cs.length) (hcount : 7 ≤ sched.count j) :
    ∃ r, outcome (exec (spawn w cs) sched) j = some r := by
  have hall : ∀ (k : Nat) t, (spawn w cs).ts[k]? = some t → t.call.isResolver = true := by
    intro k t hk
    rw [spawn_getElem?] at hk
    cases hck : cs[k]? with
    | none => simp [hck] at hk
    | some c =>
      simp [hck] at hk
      subst hk
      exact hres c (List.getElem?_mem hck)
  have h1 := remainingAt_exec (spawn w cs) hall sched j
  have h2 := remainingAt_spawn w cs j
  have hz : remainingAt (exec (spawn w cs) sched) j = 0 := by omega
  have hlen : j < (exec (spawn w cs) sched).ts.length := by
    rw [exec_length]; simpa [spawn] using hj
  unfold remainingAt at hz
  unfold outcome
  cases ht : (exec (spawn w cs) sched).ts[j]? with
  | none => simp [List.getElem?_eq_none_iff] at ht; omega
  | some t =>
    rw [ht] at hz
    rcases t with ⟨c, pc⟩
    cases pc <;> simp [remaining] at hz
    exact ⟨_, rfl⟩

theorem outcome_eq_some {s : Sys T} {j : Nat} {r : Res (Val T)} (h : outcome s j = some r) :
    ∃ c, s.ts[j]? = some ⟨c, .fin r⟩ := by
  unfold outcome at h
  cases ht : s.ts[j]? with
  | none => simp [ht] at h
  | some t =>
    rcases t with ⟨c, pc⟩
    cases pc <;> simp [ht] at h
    exact ⟨c, by rw [h]⟩

theorem success_ne_failure (c : Call T) (hr : c.isResolver = true) : c.success ≠ c.failure := by
  cases c <;> simp [Call.isResolver, Call.success, Call.failure] at hr ⊢

theorem finOk_resolver {w : World T} {c : Call T} {r : Res (Val T)} (hr : c.isResolver = true)
    (h : FinOk w c r) : r = c.success ∨ r = c.failure := by
  cases c <;> simp [Call.isResolver] at hr <;> simp only [FinOk] at h <;>
    rcases h with ⟨h, _⟩ | ⟨h, _⟩ <;> simp [h, Call.success, Call.failure]

/-- C1 (exactly-once resolution).  Let `cs` be any non-empty list of `Resolve` and
`TryResolve` calls racing on one empty future, and let the actions of the calls
take effect in the order of an arbitrary schedule whose first action belongs to
call `i` (that action is the first compare-and-swap to take effect).  Then the
slot holds the value of call `i` and `Get` returns it; no call other than `i`
can report success and call `i` cannot report failure; and as soon as every call
has been given seven actions all of them have finished: call `i` has succeeded,
every other `TryResolve` has returned false and every other `Resolve` has
panicked, so exactly one call succeeded. -/
theorem exactly_once_resolution (cs : List (Call T)) (hres : ∀ c ∈ cs, c.isResolver = true)
    (i : Nat) (c : Call T) (v : T) (hc : cs[i]? = some c) (hv : c.value? = some v)
    (rest : List Nat) :
    (exec (spawn empty cs) (i :: rest)).w.f.vp = some v ∧
    (Get (exec (spawn empty cs) (i :: rest)).w).1 = .ret v ∧
    (∀ (j : Nat) cj r, cs[j]? = some cj →
      outcome (exec (spawn empty cs) (i :: rest)) j = some r →
      r = if j = i then cj.success else cj.failure) ∧
    ((∀ j < cs.length, 7 ≤ (i :: rest).count j) →
      ∀ (j : Nat) cj, cs[j]? = some cj →
        outcome (exec (spawn empty cs) (i :: rest)) j =
          some (if j = i then cj.success else cj.failure) ∧
        (outcome (exec (spawn empty cs) (i :: rest)) j = some cj.success ↔ j = i)) := by
  have hexec : exec (spawn (empty : World T) cs) (i :: rest) =
      exec (sysStep (spawn empty cs) i) rest := rfl
  obtain ⟨hr1, hv1⟩ := raceInv_first cs hres i c v hc hv
  obtain ⟨hr2, hv2⟩ := raceInv_exec hr1 rest
  have hinv := inv_of_initial (Or.inl rfl : Initial (empty : World T)) cs (i :: rest)
  rw [hexec] at hinv ⊢
  have hvp : (exec (sysStep (spawn empty cs) i) rest).w.f.vp = some v := hv2.trans hv1
  have hout : ∀ (j : Nat) cj r, cs[j]? = some cj →
      outcome (exec (sysStep (spawn empty cs) i) rest) j = some r →
      r = if j = i then cj.success else cj.failure := by
    intro j cj r hcj ho
    obtain ⟨c', ht⟩ := outcome_eq_some ho
    obtain ⟨hcs, hres', hwon, hlost⟩ := hr2.2.2 j _ ht
    have hcc : cj = c' := by
      have := hcj.symm.trans hcs
      simpa using this
    subst hcc
    have hfin := (hinv.2.1 j _ ht).2.2.2.2.1 r rfl
    by_cases hji : j = i
    · simp only [hji, if_true]
      rcases finOk_resolver hres' hfin with h | h
      · exact h
      · exact absurd (by simp [h]) (hwon hji).2
    · simp only [hji, if_false]
      rcases hlost hji with h | h
      · simp at h
      · simpa using h
  refine ⟨hvp, by simp [Get, hvp], hout, ?_⟩
  intro hfair j cj hcj
  have hj : j < cs.length := by
    rcases Nat.lt_or_ge j cs.length with h | h
    · exact h
    · simp [List.getElem?_eq_none h] at hcj
  obtain ⟨r, hr⟩ := resolvers_finish empty cs hres (i :: rest) j hj (hfair j hj)
  rw [hexec] at hr
  have hreq := hout j cj r hcj hr
  rw [hreq] at hr
  refine ⟨hr, ?_⟩
  rw [hr]
  have hne := success_ne_failure cj (hres cj (List.getElem?_mem hcj))
  by_cases hji : j = i
  · simp [hji]
  · simp only [hji, if_false, iff_false]
    intro h
    exact hne (Option.some.inj h).symm

/-- Five `Resolve` and five `TryResolve` calls with distinct values, as in
`TestFuture`: call 7 performs the first compare-and-swap, then all ten calls
are scheduled round-robin seven times.  Call 7 wins, call 0 panics, call 5
returns false. -/
theorem exactly_once_resolution_witness :
    (exec (spawn (empty : World Nat)
        [.Resolve 11, .Resolve 12, .Resolve 13, .Resolve 14, .Resolve 15,
         .TryResolve 21, .TryResolve 22, .TryResolve 23, .TryResolve 24, .TryResolve 25])
        (7 :: (List.replicate 7 (List.range 10)).flatten)).w.f.vp = some 23 ∧
    outcome (exec (spawn (empty : World Nat)
        [.Resolve 11, .Resolve 12, .Resolve 13, .Resolve 14, .Resolve 15,
         .TryResolve 21, .TryResolve 22, .TryResolve 23, .TryResolve 24, .TryResolve 25])
        (7 :: (List.replicate 7 (List.range 10)).flatten)) 7 = some (.ret (.bool true)) ∧
    outcome (exec (spawn (empty : World Nat)
        [.Resolve 11, .Resolve 12, .Resolve 13, .Resolve 14, .Resolve 15,
         .TryResolve 21, .TryResolve 22, .TryResolve 23, .TryResolve 24, .TryResolve 25])
        (7 :: (List.replicate 7 (List.range 10)).flatten)) 0 = some (.panic .alreadyResolved) ∧
    outcome (exec (spawn (empty : World Nat)
        [.Resolve 11, .Resolve 12, .Resolve 13, .Resolve 14, .Resolve 15,
         .TryResolve 21, .TryResolve 22, .TryResolve 23, .TryResolve 24, .TryResolve 25])
        (7 :: (List.replicate 7 (List.range 10)).flatten)) 5 = some (.ret (.bool false)) := by
  have h := exactly_once_resolution
    [.Resolve 11, .Resolve 12, .Resolve 13, .Resolve 14, .Resolve 15,
     .TryResolve 21, .TryResolve 22, .TryResolve 23, .TryResolve 24, .TryResolve 25]
    (by decide) 7 (.TryResolve 23) 23 (by decide) (by decide)
    (List.replicate 7 (List.range 10)).flatten
  exact ⟨h.1, (h.2.2.2 (by decide) 7 _ rfl).1, (h.2.2.2 (by decide) 0 _ rfl).1,
    (h.2.2.2 (by decide) 5 _ rfl).1⟩

/-! ## The methods on a reachable future -/

theorem reachable_empty : Reachable (empty : World T) :=
  ⟨empty, [], [], Or.inl rfl, rfl⟩

theorem reachable_Resolved (v : T) : Reachable (Resolved v) :=
  ⟨Resolved v, [], [], Or.inr ⟨v, rfl⟩, rfl⟩

/-- C2.  On every reachable state of the future `TryResolve(v)` returns (it neither
panics nor parks), it returns true exactly when the value slot was empty, and
when it returns true the slot holds `v`, `Get` returns `v`, and the channel
that `Done` hands out is closed. -/
theorem tryResolve_true_iff_unresolved (w : World T) (hw : Reachable w) (v : T) :
    ((TryResolve v w).1 = .ret true ∨ (TryResolve v w).1 = .ret false) ∧
    ((TryResolve v w).1 = .ret true ↔ w.f.vp = none) ∧
    ((TryResolve v w).1 = .ret true →
      (TryResolve v w).2.f.vp = some v ∧
      Get (TryResolve v w).2 = (.ret v, (TryResolve v w).2) ∧
      IsDone (TryResolve v w).2 = (.ret true, (TryResolve v w).2) ∧
      ∃ c, Done (TryResolve v w).2 = (.ret c, (TryResolve v w).2) ∧
        isClosed (TryResolve v w).2 c = true) := by
  obtain ⟨k1, k2, k3⟩ := reachable_worldInv hw
  rcases w with ⟨⟨vp, dp⟩, n, cl⟩
  cases vp <;> cases dp <;>
    simp_all [TryResolve, vpCAS, done, makeChan, dpCAS, closeChan, isClosed, Get, IsDone, Done]

/-- A future that is being resolved by call 0 while call 1 has already lost:
the state after the schedule `[0, 1, 0]`. -/
theorem tryResolve_true_iff_unresolved_witness :
    Reachable (exec (spawn (empty : World Nat) [.TryResolve 1, .TryResolve 2]) [0, 1, 0]).w ∧
    (TryResolve 3 (exec (spawn (empty : World Nat) [.TryResolve 1, .TryResolve 2]) [0, 1, 0]).w).1
      = .ret false ∧
    (TryResolve 3 (empty : World Nat)).1 = .ret true :=
  ⟨⟨empty, _, _, Or.inl rfl, rfl⟩,
   by
    have h := (tryResolve_true_iff_unresolved
      (exec (spawn (empty : World Nat) [.TryResolve 1, .TryResolve 2]) [0, 1, 0]).w
      ⟨empty, _, _, Or.inl rfl, rfl⟩ 3).1
    rcases h with h | h
    · exact absurd h (by decide)
    · exact h,
   by decide⟩

/-- C3.  On a future whose value slot already holds `x`, `TryResolve(v)` returns
false and changes nothing at all: the slot still holds `x`, `Get` returns `x`,
`Done` returns the same channel as before, and a signal that was fired is
still fired. -/
theorem tryResolve_resolved_unchanged (w : World T) (x v : T) (hx : w.f.vp = some x) :
    TryResolve v w = (.ret false, w) ∧
    (TryResolve v w).2.f.vp = some x ∧
    (Get (TryResolve v w).2).1 = .ret x ∧
    Done (TryResolve v w).2 = Done w ∧
    IsDone (TryResolve v w).2 = IsDone w ∧
    (fired w → fired (TryResolve v w).2) := by
  have h : TryResolve v w = (.ret false, w) := by simp [TryResolve, vpCAS, hx]
  rw [h]
  exact ⟨rfl, hx, by simp [Get, hx], rfl, rfl, fun hf => hf⟩

/-- The pre-resolved future of `TestResolved`: `TryResolve(21)` on `Resolved(1)`
fails, the value stays 1 and the signal stays fired. -/
theorem tryResolve_resolved_unchanged_witness :
    TryResolve 21 (Resolved 1 : World Nat) = (.ret false, Resolved 1) ∧
    (Get (TryResolve 21 (Resolved 1 : World Nat)).2).1 = .ret 1 ∧
    (IsDone (TryResolve 21 (Resolved 1 : World Nat)).2).1 = .ret true := by
  have h := tryResolve_resolved_unchanged (Resolved 1 : World Nat) 1 21 rfl
  exact ⟨h.1, h.2.2.1, by rw [h.2.2.2.2.1]; decide⟩

/-- C4.  On every reachable state of the future `Resolve(v)` panics exactly when
the value slot was already written, the panic then being "future: already
resolved" and the future being left as it was; otherwise `Resolve(v)` returns
and leaves the future exactly as a successful `TryResolve(v)` does (`Get`
returns `v`, the signal is fired).  No other panic can occur: the `close` of
the completion signal never meets a closed channel, neither when the call runs
alone nor in any interleaving of any calls. -/
theorem resolve_panics_iff_resolved (w : World T) (hw : Reachable w) (v : T) :
    ((∃ p, (Resolve v w).1 = .panic p) ↔ w.f.vp ≠ none) ∧
    (w.f.vp ≠ none → Resolve v w = (.panic .alreadyResolved, w)) ∧
    (w.f.vp = none →
      (TryResolve v w).1 = .ret true ∧
      Resolve v w = (.ret (), (TryResolve v w).2) ∧
      Get (Resolve v w).2 = (.ret v, (Resolve v w).2) ∧
      IsDone (Resolve v w).2 = (.ret true, (Resolve v w).2)) ∧
    (Resolve v w).1 ≠ .panic .closeOfClosedChannel ∧
    (∀ (w0 : World T) cs sched (j : Nat) r, Initial w0 →
      outcome (exec (spawn w0 cs) sched) j = some r →
      r ≠ .panic .closeOfClosedChannel ∧ r ≠ .panic .nilDereference) := by
  obtain ⟨k1, k2, k3⟩ := reachable_worldInv hw
  refine ⟨?_, ?_, ?_, ?_, ?_⟩
  · rcases w with ⟨⟨vp, dp⟩, n, cl⟩
    cases vp <;> cases dp <;>
      simp_all [Resolve, TryResolve, vpCAS, done, makeChan, dpCAS, closeChan, isClosed]
  · rcases w with ⟨⟨vp, dp⟩, n, cl⟩
    cases vp <;> cases dp <;>
      simp_all [Resolve, TryResolve, vpCAS, done, makeChan, dpCAS, closeChan, isClosed]
  · rcases w with ⟨⟨vp, dp⟩, n, cl⟩
    cases vp <;> cases dp <;>
      simp_all [Resolve, TryResolve, vpCAS, done, makeChan, dpCAS, closeChan, isClosed, Get,
        IsDone, Done]
  · rcases w with ⟨⟨vp, dp⟩, n, cl⟩
    cases vp <;> cases dp <;>
      simp_all [Resolve, TryResolve, vpCAS, done, makeChan, dpCAS, closeChan, isClosed]
  · intro w0 cs sched j r h0 ho
    obtain ⟨c, ht⟩ := outcome_eq_some ho
    have hfin := ((inv_of_initial h0 cs sched).2.1 j _ ht).2.2.2.2.1 r rfl
    cases c <;> simp only [FinOk] at hfin
    · rcases hfin with ⟨h, _⟩ | ⟨h, _⟩ <;> simp [h]
    · rcases hfin with ⟨h, _⟩ | ⟨h, _⟩ <;> simp [h]
    · obtain ⟨x, h, _⟩ := hfin; simp [h]
    · simp [hfin.1]
    · obtain ⟨x, h, _⟩ := hfin; simp [h]

/-- On the empty future `Resolve(11)` returns and `Get` then yields 11; on the
future just resolved a second `Resolve(12)` panics. -/
theorem resolve_panics_iff_resolved_witness :
    Reachable (empty : World Nat) ∧
    Resolve 11 (empty : World Nat) = (.ret (), (TryResolve 11 empty).2) ∧
    Reachable (Resolved 11 : World Nat) ∧
    Resolve 12 (Resolved 11 : World Nat) = (.panic .alreadyResolved, Resolved 11) :=
  ⟨reachable_empty,
   ((resolve_panics_iff_resolved (empty : World Nat) reachable_empty 11).2.2.1 rfl).2.1,
   reachable_Resolved 11,
   (resolve_panics_iff_resolved (Resolved 11 : World Nat) (reachable_Resolved 11) 12).2.1
     (by decide)⟩

/-- With nobody designated as winner, `RaceInv` says that every resolver loses. -/
theorem raceInv_resolved (v : T) (cs : List (Call T)) (hres : ∀ c ∈ cs, c.isResolver = true) :
    RaceInv cs cs.length (spawn (Resolved v) cs) := by
  refine ⟨by simp [spawn, Resolved, empty, makeChan, closeChan, isClosed], by simp [spawn], ?_⟩
  intro j u hu
  rw [spawn_getElem?] at hu
  cases hcj : cs[j]? with
  | none => simp [hcj] at hu
  | some cj =>
    simp [hcj] at hu
    subst hu
    have hj : j < cs.length := by
      rcases Nat.lt_or_ge j cs.length with h | h
      · exact h
      · simp [List.getElem?_eq_none h] at hcj
    exact ⟨rfl, hres cj (List.getElem?_mem hcj), fun h => absurd h (Nat.ne_of_lt hj),
      fun _ => Or.inl rfl⟩

/-- C6.  The future `Resolved(v)` is the very state that a successful
`TryResolve(v)` leaves behind on an empty future.  Its signal is fired, `Get`
and `Wait` return at once, every `TryResolve` returns false and every
`Resolve` panics without changing it; and however many later `Resolve` and
`TryResolve` calls `cs` run against it, in whatever interleaving, each one that
finishes has failed and `Get` still returns `v`. -/
theorem resolved_refines_tryResolve (v : T) (cs : List (Call T))
    (hres : ∀ c ∈ cs, c.isResolver = true) (sched : List Nat) :
    TryResolve v (empty : World T) = (.ret true, Resolved v) ∧
    IsDone (Resolved v) = (.ret true, Resolved v) ∧
    Get (Resolved v) = (.ret v, Resolved v) ∧
    Wait (Resolved v) = (.ret (), Resolved v) ∧
    (∀ u, TryResolve u (Resolved v) = (.ret false, Resolved v)) ∧
    (∀ u, Resolve u (Resolved v) = (.panic .alreadyResolved, Resolved v)) ∧
    (∀ (j : Nat) cj r, cs[j]? = some cj →
      outcome (exec (spawn (Resolved v) cs) sched) j = some r → r = cj.failure) ∧
    ((∀ j < cs.length, 7 ≤ sched.count j) → ∀ (j : Nat) cj, cs[j]? = some cj →
      outcome (exec (spawn (Resolved v) cs) sched) j = some cj.failure) ∧
    (Get (exec (spawn (Resolved v) cs) sched).w).1 = .ret v := by
  obtain ⟨hr, hv⟩ := raceInv_exec (raceInv_resolved v cs hres) sched
  have hout : ∀ (j : Nat) cj r, cs[j]? = some cj →
      outcome (exec (spawn (Resolved v) cs) sched) j = some r → r = cj.failure := by
    intro j cj r hcj ho
    obtain ⟨c', ht⟩ := outcome_eq_some ho
    obtain ⟨hcs, _, _, hlost⟩ := hr.2.2 j _ ht
    have hcc : cj = c' := by simpa using hcj.symm.trans hcs
    subst hcc
    have hj : j < cs.length := by
      rcases Nat.lt_or_ge j cs.length with h | h
      · exact h
      · simp [List.getElem?_eq_none h] at hcj
    rcases hlost (Nat.ne_of_lt hj) with h | h
    · simp at h
    · simpa using h
  have hvp : (exec (spawn (Resolved v) cs) sched).w.f.vp = some v := by
    rw [hv]; rfl
  refine ⟨?_, ?_, ?_, ?_, ?_, ?_, hout, ?_, by simp [Get, hvp]⟩
  · simp [TryResolve, vpCAS, done, makeChan, dpCAS, closeChan, isClosed, Resolved, empty]
  · simp [IsDone, Done, done, isClosed, Resolved, empty, makeChan, closeChan]
  · simp [Get, Resolved, empty, makeChan, closeChan, isClosed]
  · simp [Wait, done, recv, Resolved, empty, makeChan, closeChan, isClosed]
  · intro u; simp [TryResolve, vpCAS, Resolved, empty, makeChan, closeChan, isClosed]
  · intro u; simp [Resolve, TryResolve, vpCAS, Resolved, empty, makeChan, closeChan, isClosed]
  · intro hfair j cj hcj
    have hj : j < cs.length := by
      rcases Nat.lt_or_ge j cs.length with h | h
      · exact h
      · simp [List.getElem?_eq_none h] at hcj
    obtain ⟨r, hr'⟩ := resolvers_finish (Resolved v) cs hres sched j hj (hfair j hj)
    rw [hout j cj r hcj hr'] at hr'
    exact hr'

/-- The scenario of `TestResolved` with two resolvers: both fail on `Resolved(1)`. -/
theorem resolved_refines_tryResolve_witness :
    outcome (exec (spawn (Resolved 1 : World Nat) [.Resolve 11, .TryResolve 21])
      (List.replicate 7 [0, 1]).flatten) 0 = some (.panic .alreadyResolved) ∧
    outcome (exec (spawn (Resolved 1 : World Nat) [.Resolve 11, .TryResolve 21])
      (List.replicate 7 [0, 1]).flatten) 1 = some (.ret (.bool false)) ∧
    (Get (exec (spawn (Resolved 1 : World Nat) [.Resolve 11, .TryResolve 21])
      (List.replicate 7 [0, 1]).flatten).w).1 = .ret 1 := by
  have h := resolved_refines_tryResolve (1 : Nat) [.Resolve 11, .TryResolve 21] (by decide)
    (List.replicate 7 [0, 1]).flatten
  exact ⟨h.2.2.2.2.2.2.2.1 (by decide) 0 _ rfl, h.2.2.2.2.2.2.2.1 (by decide) 1 _ rfl,
    h.2.2.2.2.2.2.2.2⟩

/-! ## Signal fired implies value written -/

theorem exec_append (s : Sys T) (a b : List Nat) : exec s (a ++ b) = exec (exec s a) b := by
  simp [exec, List.foldl_append]

theorem exec_le {s : Sys T} (hs : Inv s) (sched : List Nat) : s.w.Le (exec s sched).w := by
  induction sched generalizing s with
  | nil => exact World.Le.refl _
  | cons k rest ih =>
    have h1 : s.w.Le (sysStep s k).w := by
      rcases sysStep_cases s k with h | ⟨t, w1, t1, hti, hst, h⟩
      · rw [h]; exact World.Le.refl _
      · rw [h]
        exact (step_local hst hs.1 (hs.2.1 k t hti) (hs.2.2.1 k t hti)).1
    exact World.Le.trans h1 (ih (inv_sysStep hs k))

/-- C5.  Start from an empty or a pre-resolved future, let any calls of `Resolve`,
`TryResolve`, `Get`, `Wait` and `Done` run, and stop after any number of atomic
actions (so also between a compare-and-swap on the value slot and the `close`
that follows it).  In the state reached: if any channel is closed, in
particular if the completion signal is fired, the value slot is written; a
`Get` that stands at its final dereference finds the slot written and returns
its content; no call has panicked on a nil dereference; a `Get` that has
returned has returned the stored value; and once the signal is fired `Get`,
run now or after any further actions, returns the stored value. -/
theorem fired_implies_written (w0 : World T) (h0 : Initial w0) (cs : List (Call T))
    (sched : List Nat) :
    ((exec (spawn w0 cs) sched).w.closed ≠ [] → (exec (spawn w0 cs) sched).w.f.vp ≠ none) ∧
    (fired (exec (spawn w0 cs) sched).w →
      ∃ v, (exec (spawn w0 cs) sched).w.f.vp = some v ∧
        ∀ later, Get (exec (spawn w0 cs) (sched ++ later)).w =
          (.ret v, (exec (spawn w0 cs) (sched ++ later)).w)) ∧
    ((IsDone (exec (spawn w0 cs) sched).w).1 = .ret true →
      ∃ v, (Get (exec (spawn w0 cs) sched).w).1 = .ret v) ∧
    (∀ (j : Nat) t, (exec (spawn w0 cs) sched).ts[j]? = some t → t.pc = .vReload →
      ∃ v, (exec (spawn w0 cs) sched).w.f.vp = some v ∧
        step (exec (spawn w0 cs) sched).w t =
          some ((exec (spawn w0 cs) sched).w, ⟨t.call, .fin (.ret (.val v))⟩)) ∧
    (∀ (j : Nat) r, outcome (exec (spawn w0 cs) sched) j = some r →
      r ≠ .panic .nilDereference) ∧
    (∀ (j : Nat) v, outcome (exec (spawn w0 cs) sched) j = some (.ret (.val v)) →
      (exec (spawn w0 cs) sched).w.f.vp = some v) := by
  have hinv := inv_of_initial h0 cs sched
  obtain ⟨⟨k1, k2, k3⟩, oks, fls, uniq⟩ := hinv
  have hwritten : fired (exec (spawn w0 cs) sched).w →
      ∃ v, (exec (spawn w0 cs) sched).w.f.vp = some v := by
    intro ⟨c, _, hc⟩
    have hne : (exec (spawn w0 cs) sched).w.closed ≠ [] := by
      intro h; rw [h] at hc; simp at hc
    have := k2 hne
    cases hv : (exec (spawn w0 cs) sched).w.f.vp with
    | none => exact absurd hv this
    | some v => exact ⟨v, rfl⟩
  refine ⟨k2, ?_, ?_, ?_, ?_, ?_⟩
  · intro hf
    obtain ⟨v, hv⟩ := hwritten hf
    refine ⟨v, hv, fun later => ?_⟩
    rw [exec_append]
    have hle := exec_le (inv_of_initial h0 cs sched) later
    simp [Get, hle.1 v hv]
  · intro hd
    have hf : fired (exec (spawn w0 cs) sched).w := by
      generalize (exec (spawn w0 cs) sched).w = w at hd k1 k2 k3 ⊢
      rcases w with ⟨⟨vp, dp⟩, n, cl⟩
      cases dp <;> simp_all [IsDone, Done, done, makeChan, dpCAS, isClosed, fired]
    obtain ⟨v, hv⟩ := hwritten hf
    exact ⟨v, by simp [Get, hv]⟩
  · intro j t ht hpc
    obtain ⟨hcall, hne⟩ := (oks j t ht).2.2.2.1 hpc
    cases hv : (exec (spawn w0 cs) sched).w.f.vp with
    | none => exact absurd hv hne
    | some v =>
      refine ⟨v, rfl, ?_⟩
      simp [step, hpc, hv]
  · intro j r ho
    obtain ⟨c, ht⟩ := outcome_eq_some ho
    have hfin := (oks j _ ht).2.2.2.2.1 r rfl
    cases c <;> simp only [FinOk] at hfin
    · rcases hfin with ⟨h, _⟩ | ⟨h, _⟩ <;> simp [h]
    · rcases hfin with ⟨h, _⟩ | ⟨h, _⟩ <;> simp [h]
    · obtain ⟨x, h, _⟩ := hfin; simp [h]
    · simp [hfin.1]
    · obtain ⟨x, h, _⟩ := hfin; simp [h]
  · intro j v ho
    obtain ⟨c, ht⟩ := outcome_eq_some ho
    have hfin := (oks j _ ht).2.2.2.2.1 _ rfl
    cases c <;> simp only [FinOk] at hfin
    · rcases hfin with ⟨h, _⟩ | ⟨h, _⟩ <;> simp at h
    · rcases hfin with ⟨h, _⟩ | ⟨h, _⟩ <;> simp at h
    · obtain ⟨x, h, hx⟩ := hfin
      simp at h
      rw [h]; exact hx
    · simp at hfin
    · obtain ⟨x, h, _⟩ := hfin; simp at h

/-- A `Get` takes the slow path on an empty future, a `TryResolve(9)` then runs
to completion, and the `Get` is woken: it stands at its final dereference with
the slot written, and finishes with 9. -/
theorem fired_implies_written_witness :
    Initial (empty : World Nat) ∧
    (exec (spawn (empty : World Nat) [.Get, .TryResolve 9]) [0, 0, 0, 0, 0, 1, 1, 1, 0]).ts[0]?
      = some ⟨.Get, .vReload⟩ ∧
    (exec (spawn (empty : World Nat) [.Get, .TryResolve 9])
      [0, 0, 0, 0, 0, 1, 1, 1, 0]).w.closed ≠ [] ∧
    (exec (spawn (empty : World Nat) [.Get, .TryResolve 9])
      [0, 0, 0, 0, 0, 1, 1, 1, 0]).w.f.vp ≠ none :=
  ⟨Or.inl rfl, by decide, by decide,
   (fired_implies_written (empty : World Nat) (Or.inl rfl) [.Get, .TryResolve 9]
      [0, 0, 0, 0, 0, 1, 1, 1, 0]).1 (by decide)⟩

/-! ## The multi-wait helper -/

theorem await_all_fired (ctx : Context) (hc : ctx.cancelled = false) (fired : Chan → Bool)
    (pick : Nat → Bool) (chs : List Chan) (h : ∀ c ∈ chs, fired c = true) :
    Await ctx fired pick chs = .returned true := by
  induction chs generalizing pick with
  | nil => simp [Await, Context.Err, hc]
  | cons c rest ih =>
    have hcf : fired c = true := h c (List.mem_cons_self _ _)
    simp only [Await, Context.doneReady, hc, hcf]
    exact ih _ (fun x hx => h x (List.mem_cons_of_mem _ hx))

theorem await_leftmost_unfired (ctx : Context) (hc : ctx.cancelled = false)
    (fired : Chan → Bool) (pick : Nat → Bool) (pre : List Chan) (c : Chan) (post : List Chan)
    (hpre : ∀ x ∈ pre, fired x = true) (hcf : fired c = false) :
    Await ctx fired pick (pre ++ c :: post) = .waiting (c :: post) := by
  induction pre generalizing pick with
  | nil => simp [Await, Context.doneReady, hc, hcf]
  | cons a rest ih =>
    have haf : fired a = true := hpre a (List.mem_cons_self _ _)
    simp only [List.cons_append, Await, Context.doneReady, hc, haf]
    exact ih _ (fun x hx => hpre x (List.mem_cons_of_mem _ hx))

/-- Every list of channels is all fired, or splits at its leftmost unfired channel. -/
theorem split_leftmost_unfired (fired : Chan → Bool) (chs : List Chan) :
    (∀ c ∈ chs, fired c = true) ∨
    ∃ pre c post, chs = pre ++ c :: post ∧ (∀ x ∈ pre, fired x = true) ∧ fired c = false := by
  induction chs with
  | nil => exact Or.inl (by simp)
  | cons a rest ih =>
    cases haf : fired a with
    | false => exact Or.inr ⟨[], a, rest, rfl, by simp, haf⟩
    | true =>
      rcases ih with h | ⟨pre, c, post, h1, h2, h3⟩
      · exact Or.inl (by
          intro x hx
          rcases List.mem_cons.mp hx with rfl | hx
          · exact haf
          · exact h x hx)
      · refine Or.inr ⟨a :: pre, c, post, by simp [h1], ?_, h3⟩
        intro x hx
        rcases List.mem_cons.mp hx with rfl | hx
        · exact haf
        · exact h2 x hx

/-- C7.  Under a context that is not cancelled, whatever the `select`s pick:
`Await` returns true exactly when every supplied channel is closed (so it
returns true on the empty list), it never returns false, and when some channel
is open it is parked in the `select` on the leftmost open channel — still
having all the channels from that one on to consume — whichever of the later
channels are closed. -/
theorem await_not_cancelled (ctx : Context) (hc : ctx.cancelled = false)
    (fired : Chan → Bool) (pick : Nat → Bool) (chs : List Chan) :
    (Await ctx fired pick chs = .returned true ↔ ∀ c ∈ chs, fired c = true) ∧
    Await ctx fired pick chs ≠ .returned false ∧
    Await ctx fired pick [] = .returned true ∧
    (∀ pre c post, chs = pre ++ c :: post → (∀ x ∈ pre, fired x = true) → fired c = false →
      Await ctx fired pick chs = .waiting (c :: post)) := by
  have h4 : ∀ pre c post, chs = pre ++ c :: post → (∀ x ∈ pre, fired x = true) →
      fired c = false → Await ctx fired pick chs = .waiting (c :: post) := by
    intro pre c post hchs hpre hcf
    rw [hchs]
    exact await_leftmost_unfired ctx hc fired pick pre c post hpre hcf
  refine ⟨?_, ?_, by simp [Await, Context.Err, hc], h4⟩
  · constructor
    · intro hret
      rcases split_leftmost_unfired fired chs with h | ⟨pre, c, post, h1, h2, h3⟩
      · exact h
      · rw [h4 pre c post h1 h2 h3] at hret
        simp at hret
    · exact await_all_fired ctx hc fired pick chs
  · rcases split_leftmost_unfired fired chs with h | ⟨pre, c, post, h1, h2, h3⟩
    · rw [await_all_fired ctx hc fired pick chs h]; simp
    · rw [h4 pre c post h1 h2 h3]; simp

/-- The scenario of `TestAwaitSuccessful` with A, B, C the channels 0, 1, 2: with
only B closed `Await` is parked on A; with A and B closed it is parked on C;
with all three closed it returns true. -/
theorem await_not_cancelled_witness :
    Await ⟨false⟩ (fun c => decide (c = 1)) (fun _ => true) [0, 1, 2] = .waiting [0, 1, 2] ∧
    Await ⟨false⟩ (fun c => decide (c = 1 ∨ c = 0)) (fun _ => true) [0, 1, 2] = .waiting [2] ∧
    Await ⟨false⟩ (fun _ => true) (fun _ => true) [0, 1, 2] = .returned true :=
  ⟨(await_not_cancelled ⟨false⟩ rfl (fun c => decide (c = 1)) (fun _ => true) [0, 1, 2]).2.2.2
      [] 0 [1, 2] rfl (by simp) (by decide),
   (await_not_cancelled ⟨false⟩ rfl (fun c => decide (c = 1 ∨ c = 0)) (fun _ => true)
      [0, 1, 2]).2.2.2 [0, 1] 2 [] rfl (by decide) (by decide),
   (await_not_cancelled ⟨false⟩ rfl (fun _ => true) (fun _ => true) [0, 1, 2]).1.mpr
      (by simp)⟩

/-- C8.  Under a cancelled context `Await` returns false: for every list of
channels (the empty one included), whichever of them are closed, and whichever
ready case each `select` picks.  It never returns true and never stays parked,
so it does not report how many channels it had consumed. -/
theorem await_cancelled (ctx : Context) (hc : ctx.cancelled = true)
    (fired : Chan → Bool) (pick : Nat → Bool) (chs : List Chan) :
    Await ctx fired pick chs = .returned false := by
  induction chs generalizing pick with
  | nil => simp [Await, Context.Err, hc]
  | cons c rest ih =>
    cases hcf : fired c with
    | false => simp [Await, Context.doneReady, hc, hcf]
    | true =>
      cases hp : pick 0 with
      | true => simp [Await, Context.doneReady, hc, hcf, hp]
      | false =>
        simp only [Await, Context.doneReady, hc, hcf, hp]
        exact ih _

/-- The scenario of `TestAwaitCancel`: A and B closed, C open, context cancelled;
also with all three closed and every `select` taking the channel case. -/
theorem await_cancelled_witness :
    Await ⟨true⟩ (fun c => decide (c < 2)) (fun _ => false) [0, 1, 2] = .returned false ∧
    Await ⟨true⟩ (fun _ => true) (fun _ => false) [0, 1, 2] = .returned false :=
  ⟨await_cancelled ⟨true⟩ rfl (fun c => decide (c < 2)) (fun _ => false) [0, 1, 2],
   await_cancelled ⟨true⟩ rfl (fun _ => true) (fun _ => false) [0, 1, 2]⟩

/-! ## Observing the signal -/

/-- C9.  On every reachable state of the future `Done` returns a channel, a second
call returns the same channel and changes nothing any more, and the call is
invisible to observers: the value slot, the set of closed channels, and the
results of `Get`, `Wait` and `IsDone` are what they were before the call.  The
channel handed out is the one a later successful `TryResolve` closes, and
`Done` keeps returning it afterwards.  In every interleaving of any calls, all
finished calls of `Done` have returned the channel stored in the done pointer,
hence the same one. -/
theorem done_same_channel (w : World T) (hw : Reachable w) :
    (∃ c, (Done w).1 = .ret c ∧ Done (Done w).2 = (.ret c, (Done w).2) ∧
      (Done w).2.f.dp = some c ∧ (∀ d, w.f.dp = some d → d = c) ∧
      (∀ v, w.f.vp = none →
        (TryResolve v (Done w).2).1 = .ret true ∧
        isClosed (TryResolve v (Done w).2).2 c = true ∧
        Done (TryResolve v (Done w).2).2 = (.ret c, (TryResolve v (Done w).2).2))) ∧
    (Done w).2.f.vp = w.f.vp ∧
    (Done w).2.closed = w.closed ∧
    (Get (Done w).2).1 = (Get w).1 ∧
    (Wait (Done w).2).1 = (Wait w).1 ∧
    (IsDone (Done w).2).1 = (IsDone w).1 ∧
    (∀ (w0 : World T) cs sched (j k : Nat) c d, Initial w0 →
      outcome (exec (spawn w0 cs) sched) j = some (.ret (.chan c)) →
      outcome (exec (spawn w0 cs) sched) k = some (.ret (.chan d)) →
      c = d ∧ (exec (spawn w0 cs) sched).w.f.dp = some c) := by
  obtain ⟨k1, k2, k3⟩ := reachable_worldInv hw
  have hchan : ∀ (w0 : World T) cs sched (j : Nat) c, Initial w0 →
      outcome (exec (spawn w0 cs) sched) j = some (.ret (.chan c)) →
      (exec (spawn w0 cs) sched).w.f.dp = some c := by
    intro w0 cs sched j c h0 ho
    obtain ⟨cl, ht⟩ := outcome_eq_some ho
    have hfin := ((inv_of_initial h0 cs sched).2.1 j _ ht).2.2.2.2.1 _ rfl
    cases cl <;> simp only [FinOk] at hfin
    · rcases hfin with ⟨h, _⟩ | ⟨h, _⟩ <;> simp at h
    · rcases hfin with ⟨h, _⟩ | ⟨h, _⟩ <;> simp at h
    · obtain ⟨x, h, _⟩ := hfin; simp at h
    · simp at hfin
    · obtain ⟨x, h, hx⟩ := hfin
      simp at h
      rw [h]; exact hx
  refine ⟨?_, ?_, ?_, ?_, ?_, ?_, ?_⟩
  · rcases w with ⟨⟨vp, dp⟩, n, cl⟩
    cases vp <;> cases dp <;>
      simp_all [Done, done, makeChan, dpCAS, TryResolve, vpCAS, closeChan, isClosed]
  · rcases w with ⟨⟨vp, dp⟩, n, cl⟩
    cases dp <;> simp [Done, done, makeChan, dpCAS]
  · rcases w with ⟨⟨vp, dp⟩, n, cl⟩
    cases dp <;> simp [Done, done, makeChan, dpCAS]
  · rcases w with ⟨⟨vp, dp⟩, n, cl⟩
    cases vp <;> cases dp <;>
      simp_all [Done, done, makeChan, dpCAS, Get, Wait, recv, isClosed]
  · rcases w with ⟨⟨vp, dp⟩, n, cl⟩
    cases vp <;> cases dp <;>
      simp_all [Done, done, makeChan, dpCAS, Wait, recv, isClosed]
  · rcases w with ⟨⟨vp, dp⟩, n, cl⟩
    cases vp <;> cases dp <;>
      simp_all [Done, done, makeChan, dpCAS, IsDone, isClosed]
  · intro w0 cs sched j k c d h0 hj hk
    have h1 := hchan w0 cs sched j c h0 hj
    have h2 := hchan w0 cs sched k d h0 hk
    rw [h1] at h2
    exact ⟨Option.some.inj h2, h1⟩

/-- On the empty future the first `Done` creates channel 0 and the second returns
it again; `IsDone` stays false and `Get` stays parked. -/
theorem done_same_channel_witness :
    Reachable (empty : World Nat) ∧
    (Done (empty : World Nat)).1 = .ret 0 ∧
    (Done (Done (empty : World Nat)).2).1 = .ret 0 ∧
    (Get (Done (empty : World Nat)).2).1 = (Get (empty : World Nat)).1 ∧
    (IsDone (Done (empty : World Nat)).2).1 = (IsDone (empty : World Nat)).1 :=
  ⟨reachable_empty, by decide, by decide,
   (done_same_channel (empty : World Nat) reachable_empty).2.2.2.1,
   (done_same_channel (empty : World Nat) reachable_empty).2.2.2.2.2.1⟩

/-- C10 as stated fails.  After the compare-and-swap of `TryResolve(5)` and before
its `close`, the slot is written and the signal is not fired: in that state
`Get` returns 5 at once and `Wait` is parked.  The same is seen with three
threads: the `Get` of thread 1 has returned 5 while the `Wait` of thread 2
stands at its receive and cannot move. -/
theorem wait_get_differ :
    Reachable (exec (spawn (empty : World Nat) [.TryResolve 5]) [0]).w ∧
    (exec (spawn (empty : World Nat) [.TryResolve 5]) [0]).w = ⟨⟨some 5, none⟩, 0, []⟩ ∧
    (Get (exec (spawn (empty : World Nat) [.TryResolve 5]) [0]).w).1 = .ret 5 ∧
    (Wait (exec (spawn (empty : World Nat) [.TryResolve 5]) [0]).w).1 = .blocked ∧
    outcome (exec (spawn (empty : World Nat) [.TryResolve 5, .Get, .Wait])
      [0, 1, 2, 2, 2, 2, 2, 2, 2]) 1 = some (.ret (.val 5)) ∧
    outcome (exec (spawn (empty : World Nat) [.TryResolve 5, .Get, .Wait])
      [0, 1, 2, 2, 2, 2, 2, 2, 2]) 2 = none ∧
    step (exec (spawn (empty : World Nat) [.TryResolve 5, .Get, .Wait])
      [0, 1, 2, 2, 2, 2, 2, 2, 2]).w ⟨.Wait, .gotChan 0⟩ = none ∧
    (exec (spawn (empty : World Nat) [.TryResolve 5, .Get, .Wait])
      [0, 1, 2, 2, 2, 2, 2, 2, 2]).ts[2]? = some ⟨.Wait, .gotChan 0⟩ :=
  ⟨⟨empty, [.TryResolve 5], [0], Or.inl rfl, rfl⟩, by decide⟩

/-- C10, amended.  On every reachable state of the future neither `Wait` nor `Get`
changes the value slot or panics; whenever `Wait` returns, `Get` returns, and
it returns the stored value; while the slot is empty both are parked; once the
signal is fired both return.  In the remaining states — slot written, signal
not yet fired — `Get` returns the stored value and `Wait` is parked. -/
theorem wait_get_amended (w : World T) (hw : Reachable w) :
    (Wait w).2.f.vp = w.f.vp ∧ (Get w).2.f.vp = w.f.vp ∧
    (∀ p, (Wait w).1 ≠ .panic p ∧ (Get w).1 ≠ .panic p) ∧
    ((Wait w).1 = .ret () → ∃ v, w.f.vp = some v ∧ (Get w).1 = .ret v) ∧
    (w.f.vp = none → (Wait w).1 = .blocked ∧ (Get w).1 = .blocked) ∧
    (fired w → (Wait w).1 = .ret () ∧ ∃ v, w.f.vp = some v ∧ (Get w).1 = .ret v) ∧
    (w.f.vp ≠ none → ¬ fired w →
      (Wait w).1 = .blocked ∧ ∃ v, w.f.vp = some v ∧ (Get w).1 = .ret v) := by
  obtain ⟨k1, k2, k3⟩ := reachable_worldInv hw
  rcases w with ⟨⟨vp, dp⟩, n, cl⟩
  cases vp <;> cases dp <;>
    simp_all [Wait, Get, done, makeChan, dpCAS, recv, isClosed, fired]
  intro p
  split <;> simp

/-- On the empty future both `Wait` and `Get` are parked; on `Resolved(1)` both return. -/
theorem wait_get_amended_witness :
    Reachable (empty : World Nat) ∧
    ((Wait (empty : World Nat)).1 = .blocked ∧ (Get (empty : World Nat)).1 = .blocked) ∧
    Reachable (Resolved 1 : World Nat) ∧
    ((Wait (Resolved 1 : World Nat)).1 = .ret () ∧
      ∃ v, (Resolved 1 : World Nat).f.vp = some v ∧ (Get (Resolved 1 : World Nat)).1 = .ret v) :=
  ⟨reachable_empty,
   (wait_get_amended (empty : World Nat) reachable_empty).2.2.2.2.1 rfl,
   reachable_Resolved 1,
   (wait_get_amended (Resolved 1 : World Nat) (reachable_Resolved 1)).2.2.2.2.2.1
     ⟨0, by decide, by decide⟩⟩

theorem sysStep_single (w : World T) (t : Thread T) :
    sysStep ⟨w, [t]⟩ 0 =
      match step w t with
      | none => ⟨w, [t]⟩
      | some p => ⟨p.1, [p.2]⟩ := by
  simp only [sysStep, List.getElem?_cons_zero]
  cases step w t <;> simp

theorem runSolo_unfold (w : World T) (c : Call T) :
    runSolo w c = sysStep (sysStep (sysStep (sysStep (sysStep (sysStep (sysStep
      ⟨w, [⟨c, .entry⟩]⟩ 0) 0) 0) 0) 0) 0) 0 := by
  simp only [runSolo, exec, spawn, List.replicate, List.foldl, List.map, Thread.start]

set_option maxHeartbeats 2000000 in
/-- The two presentations of the methods agree: a call that runs alone, one
atomic action at a time, ends in the world and with the result that the
whole-body function computes. -/
theorem runSolo_eq_invoke (w : World T) (c : Call T) :
    (runSolo w c).w = (invoke c w).2 ∧ report (runSolo w c) 0 = (invoke c w).1 := by
  rcases w with ⟨⟨vp, dp⟩, n, cl⟩
  rw [runSolo_unfold]
  cases c <;> cases vp <;> cases dp
  all_goals first
    | (by_cases hm : n ∈ cl <;>
        simp [hm, sysStep_single, step, stepDLoad, vpCAS, dpCAS,
          makeChan, closeChan, recv, isClosed, invoke, Resolve, TryResolve, Get, Wait, Done, done,
          report, outcome]; done)
    | (rename_i d; by_cases hm : d ∈ cl <;>
        simp [hm, sysStep_single, step, stepDLoad, vpCAS, dpCAS,
          makeChan, closeChan, recv, isClosed, invoke, Resolve, TryResolve, Get, Wait, Done, done,
          report, outcome])

/-! ## The multi-wait helper and the specification's state machine -/

theorem specIter_cancelled (ctx : Context) (fired : Chan → Bool) (pick : Nat → Bool)
    (chs : List Chan) (k : Nat) : specIter ctx fired pick chs k .cancelled = .cancelled := by
  induction k with
  | zero => rfl
  | succ k ih => simpa [specIter, specNext] using ih

theorem specIter_satisfied (ctx : Context) (fired : Chan → Bool) (pick : Nat → Bool)
    (chs : List Chan) (k : Nat) : specIter ctx fired pick chs k .satisfied = .satisfied := by
  induction k with
  | zero => rfl
  | succ k ih => simpa [specIter, specNext] using ih

theorem specIter_stuck (ctx : Context) (fired : Chan → Bool) (pick : Nat → Bool)
    (chs : List Chan) (s : WaitState) (hs : specNext ctx fired pick chs s = s) (k : Nat) :
    specIter ctx fired pick chs k s = s := by
  induction k with
  | zero => rfl
  | succ k ih => simp only [specIter, hs, ih]

/-- The recursion of `Await` on the signals from `i` on is the machine started in
`WAITING_ON(i)`, read with `toStatusChecked`. -/
theorem await_eq_specIter (ctx : Context) (fired : Chan → Bool) (pick : Nat → Bool)
    (chs : List Chan) (d : Nat) :
    ∀ (i k : Nat), chs.length - i ≤ d → d < k →
      Await ctx fired (fun j => pick (j + i)) (chs.drop i) =
        (specIter ctx fired pick chs k (.waitingOn i)).toStatusChecked ctx chs := by
  induction d with
  | zero =>
    intro i k hi hk
    obtain ⟨k, rfl⟩ : ∃ k', k = k' + 1 := ⟨k - 1, by omega⟩
    have hge : chs.length ≤ i := by omega
    have hnone : chs[i]? = none := List.getElem?_eq_none hge
    simp [specIter, specNext, hnone, specIter_satisfied, WaitState.toStatusChecked,
      List.drop_eq_nil_of_le hge, Await]
  | succ d ih =>
    intro i k hi hk
    obtain ⟨k, rfl⟩ : ∃ k', k = k' + 1 := ⟨k - 1, by omega⟩
    rcases Nat.lt_or_ge i chs.length with hlt | hge
    · have hsome : chs[i]? = some chs[i] := List.getElem?_eq_getElem hlt
      have hdrop : chs.drop i = chs[i] :: chs.drop (i + 1) := List.drop_eq_getElem_cons hlt
      have hshift : (fun j => pick (j + 1 + i)) = (fun j => pick (j + (i + 1))) := by
        funext j; congr 1; omega
      have hrec := ih (i + 1) k (by omega) (by omega)
      rw [hdrop]
      cases hc : ctx.cancelled <;> cases hf : fired chs[i]
      · have hst : specNext ctx fired pick chs (.waitingOn i) = .waitingOn i := by
          simp [specNext, hsome, hc, hf]
        rw [specIter_stuck _ _ _ _ _ hst]
        simp only [Await, Context.doneReady, hc, hf, WaitState.toStatusChecked]
        rw [hdrop]
      · simp only [Await, Context.doneReady, hc, hf, specIter, specNext, hsome, hshift]
        exact hrec
      · simp [Await, Context.doneReady, hc, hf, specIter, specNext, hsome, specIter_cancelled,
          WaitState.toStatusChecked]
      · cases hp : pick i
        · simp only [Await, Context.doneReady, hc, hf, specIter, specNext, hsome, hshift,
            Nat.zero_add, hp]
          simpa using hrec
        · simp [Await, Context.doneReady, hc, hf, specIter, specNext, hsome, hp,
            specIter_cancelled, WaitState.toStatusChecked]
    · have hnone : chs[i]? = none := List.getElem?_eq_none hge
      simp [specIter, specNext, hnone, specIter_satisfied, WaitState.toStatusChecked,
        List.drop_eq_nil_of_le hge, Await]

/-- C12 as stated fails.  With one signal, already fired, and a cancelled context,
let the `select` take the channel case.  The machine of the specification
consumes the signal, reaches `WAITING_ON(1)`, which is `SATISFIED`, and the
result is true; `Await` recurses to the empty list, finds `ctx.Err()` non-nil
and returns false.  The same happens with the three signals of the tests. -/
theorem await_differs_from_machine :
    specRun ⟨true⟩ (fun _ => true) (fun _ => false) [0] = .satisfied ∧
    (specRun ⟨true⟩ (fun _ => true) (fun _ => false) [0]).toStatus [0] = .returned true ∧
    Await ⟨true⟩ (fun _ => true) (fun _ => false) [0] = .returned false ∧
    (specRun ⟨true⟩ (fun _ => true) (fun _ => false) [0, 1, 2]).toStatus [0, 1, 2]
      = .returned true ∧
    Await ⟨true⟩ (fun _ => true) (fun _ => false) [0, 1, 2] = .returned false := by
  decide

/-- C12, amended.  `Await` computes the outcome of the specification's machine run
from `WAITING_ON(0)` with the same choices, read as follows: in `WAITING_ON(i)`
the call is parked with the signals from `i` on still to consume, `CANCELLED`
is the result false, and `SATISFIED` — all signals consumed from left to
right — is the result `ctx.Err() == nil`.  Hence under a context that is not
cancelled `Await` and the machine agree outright, and under a cancelled
context a run that reaches `SATISFIED` returns false. -/
theorem await_refines_machine (ctx : Context) (fired : Chan → Bool) (pick : Nat → Bool)
    (chs : List Chan) :
    Await ctx fired pick chs = (specRun ctx fired pick chs).toStatusChecked ctx chs ∧
    (ctx.cancelled = false →
      Await ctx fired pick chs = (specRun ctx fired pick chs).toStatus chs) ∧
    (ctx.cancelled = true → specRun ctx fired pick chs = .satisfied →
      Await ctx fired pick chs = .returned false) ∧
    (specRun ctx fired pick chs = .cancelled → Await ctx fired pick chs = .returned false) ∧
    (∀ i, specRun ctx fired pick chs = .waitingOn i →
      Await ctx fired pick chs = .waiting (chs.drop i)) := by
  have h := await_eq_specIter ctx fired pick chs chs.length 0 (chs.length + 1)
    (by omega) (by omega)
  simp only [Nat.add_zero, List.drop_zero] at h
  have h1 : Await ctx fired pick chs = (specRun ctx fired pick chs).toStatusChecked ctx chs := h
  refine ⟨h1, ?_, ?_, ?_, ?_⟩
  · intro hc
    rw [h1]
    cases specRun ctx fired pick chs <;>
      simp [WaitState.toStatusChecked, WaitState.toStatus, Context.Err, hc]
  · intro hc hs
    rw [h1, hs]
    simp [WaitState.toStatusChecked, Context.Err, hc]
  · intro hs
    rw [h1, hs]
    rfl
  · intro i hs
    rw [h1, hs]
    rfl

/-- The scenario of `TestAwaitSuccessful` once A, B and C are closed: the machine
is `SATISFIED` and `Await` returns true; and the run with a cancelled context
in which every `select` takes the channel case, where the machine is
`SATISFIED` and `Await` returns false. -/
theorem await_refines_machine_witness :
    Await ⟨false⟩ (fun _ => true) (fun _ => true) [0, 1, 2] = .returned true ∧
    Await ⟨true⟩ (fun _ => true) (fun _ => false) [0, 1, 2] = .returned false :=
  ⟨(await_refines_machine ⟨false⟩ (fun _ => true) (fun _ => true) [0, 1, 2]).2.1 rfl,
   (await_refines_machine ⟨true⟩ (fun _ => true) (fun _ => false) [0, 1, 2]).2.2.1 rfl
     (by decide)⟩

/-! ## One signal for all observers -/

set_option maxHeartbeats 1000000 in
/-- The action that writes the value slot puts its thread in flight, and a thread
in flight stays in flight until its action fires the signal. -/
theorem step_pending {w w1 : World T} {t t1 : Thread T} (h : step w t = some (w1, t1))
    (ok : ThreadOk w t) (fl : inFlight t = true → w.closed = []) :
    (w.f.vp = none → w1.f.vp ≠ none → inFlight t1 = true) ∧
    (inFlight t = true → inFlight t1 = true ∨ fired w1) := by
  obtain ⟨o1, o2, o3, o4, o5, o6⟩ := ok
  rcases t with ⟨c, pc⟩
  rcases w with ⟨⟨vp, dp⟩, n, cl⟩
  cases c <;> cases pc <;> cases vp <;> cases dp <;>
    simp [step, stepDLoad, vpCAS, dpCAS, makeChan, closeChan, recv, isClosed] at h
  all_goals (try (obtain ⟨rfl, rfl⟩ := h))
  all_goals (try (simp [inFlight, Call.isResolver, Call.value?, ThreadOk, fired] at *))
  all_goals try
    (subst fl
     simp at h
     obtain ⟨rfl, rfl⟩ := h
     simp_all [inFlight, Call.isResolver, fired])
  all_goals (rename_i c d; by_cases hc : c ∈ cl <;> simp [hc] at h)
  all_goals
    (obtain ⟨rfl, rfl⟩ := h
     simp)

/-- Once the signal is fired no thread is parked. -/
theorem step_enabled_of_fired {w : World T} {t : Thread T} (ok : ThreadOk w t) (hf : fired w)
    (hpc : ∀ r, t.pc ≠ .fin r) : ∃ p, step w t = some p := by
  obtain ⟨c0, hdp, hmem⟩ := hf
  have o3 := ok.2.2.1
  rcases t with ⟨c, pc⟩
  cases c
  · exact resolver_enabled _ _ rfl hpc
  · exact resolver_enabled _ _ rfl hpc
  all_goals
    (cases pc <;> simp [step, stepDLoad, recv, isClosed] at hpc o3 ⊢)
  all_goals first
    | (rw [hdp] at o3
       obtain rfl := Option.some.inj o3
       simp [hmem])
    | (split <;> simp)

theorem pending_sysStep {s : Sys T} (hs : Inv s) (hp : Pending s) (k : Nat) :
    Pending (sysStep s k) := by
  rcases sysStep_cases s k with h | ⟨t, w1, t1, hti, hst, h⟩
  · rw [h]; exact hp
  · rw [h]
    obtain ⟨wi, oks, fls, _⟩ := hs
    obtain ⟨hle, _, _, _, _, _, _⟩ := step_local hst wi (oks k t hti) (fls k t hti)
    obtain ⟨hnew, hkeep⟩ := step_pending hst (oks k t hti) (fls k t hti)
    have hlt : k < s.ts.length := by
      rcases Nat.lt_or_ge k s.ts.length with hl | hl
      · exact hl
      · simp [List.getElem?_eq_none hl] at hti
    have hself : (s.ts.set k t1)[k]? = some t1 := by simp [hlt]
    intro hv1
    by_cases hv : s.w.f.vp = none
    · exact Or.inr ⟨k, t1, hself, hnew hv hv1⟩
    · rcases hp hv with hf | ⟨j, u, hu, hfu⟩
      · exact Or.inl (fired_mono hle hf)
      · by_cases hjk : j = k
        · subst hjk
          rw [hti] at hu
          obtain rfl := Option.some.inj hu
          rcases hkeep hfu with h1 | h1
          · exact Or.inr ⟨j, t1, hself, h1⟩
          · exact Or.inl h1
        · refine Or.inr ⟨j, u, ?_, hfu⟩
          have hkj : ¬ k = j := fun h => hjk h.symm
          rw [List.getElem?_set]
          simp [hkj, hu]

theorem pending_exec {s : Sys T} (hs : Inv s) (hp : Pending s) (sched : List Nat) :
    Pending (exec s sched) := by
  induction sched generalizing s with
  | nil => exact hp
  | cons k rest ih => exact ih (inv_sysStep hs k) (pending_sysStep hs hp k)

theorem remainingAt_sysStep_le (s : Sys T) (k j : Nat) :
    remainingAt (sysStep s k) j ≤ remainingAt s j := by
  rcases sysStep_cases s k with h | ⟨t, w1, t1, hti, hst, h⟩
  · rw [h]
  · rw [h]
    have hlt : k < s.ts.length := by
      rcases Nat.lt_or_ge k s.ts.length with hl | hl
      · exact hl
      · simp [List.getElem?_eq_none hl] at hti
    by_cases hkj : k = j
    · subst hkj
      have := (step_remaining hst).2
      simp [remainingAt, hti, List.getElem?_set, hlt]
      omega
    · simp [remainingAt, List.getElem?_set, hkj]

theorem remainingAt_exec_le (s : Sys T) (sched : List Nat) (j : Nat) :
    remainingAt (exec s sched) j ≤ remainingAt s j := by
  induction sched generalizing s with
  | nil => exact Nat.le_refl _
  | cons k rest ih => exact Nat.le_trans (ih (sysStep s k)) (remainingAt_sysStep_le s k j)

theorem remainingAt_sysStep_lt (s : Sys T) (j : Nat) (t : Thread T) (ht : s.ts[j]? = some t)
    (hen : ∃ p, step s.w t = some p) : remainingAt (sysStep s j) j < remainingAt s j := by
  obtain ⟨p, hp⟩ := hen
  have hlt : j < s.ts.length := by
    rcases Nat.lt_or_ge j s.ts.length with hl | hl
    · exact hl
    · simp [List.getElem?_eq_none hl] at ht
  have := (@step_remaining T s.w p.1 t p.2 hp).2
  simp [sysStep, ht, hp, remainingAt, hlt]
  exact this

/-- A thread that can move whenever it has not finished, in all states with
property `P`, uses up its bound `remaining` along every schedule. -/
theorem remainingAt_exec_of_enabled (P : Sys T → Prop)
    (hP : ∀ s k, P s → P (sysStep s k)) (j : Nat)
    (hen : ∀ s t, P s → s.ts[j]? = some t → (∀ r, t.pc ≠ .fin r) → ∃ p, step s.w t = some p)
    (s : Sys T) (hs : P s) (sched : List Nat) :
    remainingAt (exec s sched) j ≤ remainingAt s j - sched.count j := by
  induction sched generalizing s with
  | nil => simp [exec]
  | cons k rest ih =>
    have hrec := ih (sysStep s k) (hP s k hs)
    have hexec : exec s (k :: rest) = exec (sysStep s k) rest := rfl
    rw [hexec, List.count_cons]
    by_cases hkj : k = j
    · subst hkj
      have hstep : remainingAt (sysStep s k) k ≤ remainingAt s k - 1 := by
        cases ht : s.ts[k]? with
        | none =>
          have := remainingAt_sysStep_le s k k
          have hz : remainingAt s k = 0 := by simp [remainingAt, ht]
          omega
        | some t =>
          by_cases hfin : ∃ r, t.pc = .fin r
          · obtain ⟨r, hr⟩ := hfin
            have := remainingAt_sysStep_le s k k
            have hz : remainingAt s k = 0 := by simp [remainingAt, ht, hr, remaining]
            omega
          · have := remainingAt_sysStep_lt s k t ht
              (hen s t hs ht (fun r hr => hfin ⟨r, hr⟩))
            omega
      simp
      omega
    · have hkj' : (k == j) = false := by simp [hkj]
      have := remainingAt_sysStep_le s k j
      simp [hkj']
      omega

theorem outcome_of_remainingAt_zero (s : Sys T) (j : Nat) (hj : j < s.ts.length)
    (hz : remainingAt s j = 0) : ∃ r, outcome s j = some r := by
  unfold remainingAt at hz
  unfold outcome
  cases ht : s.ts[j]? with
  | none => simp [List.getElem?_eq_none_iff] at ht; omega
  | some t =>
    rw [ht] at hz
    rcases t with ⟨c, pc⟩
    cases pc <;> simp [remaining] at hz
    exact ⟨_, rfl⟩

theorem exec_call_aux (cs : List (Call T)) (sched : List Nat) (s : Sys T)
    (h : ∀ (j : Nat) t, s.ts[j]? = some t → cs[j]? = some t.call) :
    ∀ (j : Nat) t, (exec s sched).ts[j]? = some t → cs[j]? = some t.call := by
  induction sched generalizing s with
  | nil => exact h
  | cons k rest ih =>
    apply ih (sysStep s k)
    intro j t hjt
    rcases sysStep_cases s k with hs | ⟨u, w1, u1, hu, hst, hs⟩
    · rw [hs] at hjt; exact h j t hjt
    · rw [hs] at hjt
      rcases getElem?_set_cases _ _ _ _ _ hjt with ⟨rfl, rfl⟩ | ⟨_, hjt'⟩
      · rw [(step_remaining hst).1]; exact h _ u hu
      · exact h j t hjt'

/-- Thread `j` of a system started with the calls `cs` executes call `cs[j]`. -/
theorem exec_call (w : World T) (cs : List (Call T)) (sched : List Nat) (j : Nat)
    (t : Thread T) (ht : (exec (spawn w cs) sched).ts[j]? = some t) : cs[j]? = some t.call := by
  refine exec_call_aux cs sched (spawn w cs) ?_ j t ht
  intro j t hjt
  rw [spawn_getElem?] at hjt
  cases hc : cs[j]? with
  | none => simp [hc] at hjt
  | some c =>
    simp [hc] at hjt
    subst hjt
    rfl

/-- A resolver that is given seven actions finishes, whatever the other threads do. -/
theorem resolver_finishes (w : World T) (cs : List (Call T)) (sched : List Nat) (j : Nat)
    (c : Call T) (hc : cs[j]? = some c) (hr : c.isResolver = true)
    (hcount : 7 ≤ sched.count j) : ∃ r, outcome (exec (spawn w cs) sched) j = some r := by
  have hj : j < cs.length := by
    rcases Nat.lt_or_ge j cs.length with h | h
    · exact h
    · simp [List.getElem?_eq_none h] at hc
  have h1 := remainingAt_exec_of_enabled
    (fun s : Sys T => ∀ t, s.ts[j]? = some t → t.call.isResolver = true)
    (by
      intro s k hs t ht
      rcases sysStep_cases s k with h | ⟨u, w1, u1, hu, hst, h⟩
      · rw [h] at ht; exact hs t ht
      · rw [h] at ht
        rcases getElem?_set_cases _ _ _ _ _ ht with ⟨rfl, rfl⟩ | ⟨_, ht'⟩
        · rw [(step_remaining hst).1]; exact hs u hu
        · exact hs t ht')
    j
    (by
      intro s t hs ht hpc
      exact resolver_enabled s.w t (hs t ht) hpc)
    (spawn w cs)
    (by
      intro t ht
      rw [spawn_getElem?, hc] at ht
      simp at ht
      subst ht
      exact hr)
    sched
  have h2 := remainingAt_spawn w cs j
  apply outcome_of_remainingAt_zero
  · rw [exec_length]; simpa [spawn] using hj
  · omega

theorem pending_spawn_empty (cs : List (Call T)) : Pending (spawn (empty : World T) cs) := by
  intro h
  exact absurd rfl h

/-- On an unresolved future shared with at least one resolver: when every thread
has been given seven actions the signal is fired, and when every thread has
been given seven more, every thread has finished. -/
theorem all_finish (cs : List (Call T)) (j0 : Nat) (c0 : Call T) (h0 : cs[j0]? = some c0)
    (hr0 : c0.isResolver = true) (sched later : List Nat)
    (hf1 : ∀ j < cs.length, 7 ≤ sched.count j) (hf2 : ∀ j < cs.length, 7 ≤ later.count j) :
    fired (exec (spawn (empty : World T) cs) sched).w ∧
    ∀ j < cs.length, ∃ r, outcome (exec (spawn (empty : World T) cs) (sched ++ later)) j = some r := by
  have hinv := inv_of_initial (Or.inl rfl : Initial (empty : World T)) cs sched
  have hpend := pending_exec (inv_spawn worldInv_empty cs) (pending_spawn_empty cs) sched
  have hlen : ∀ (j : Nat) (c : Call T), cs[j]? = some c → j < cs.length := by
    intro j c hc
    rcases Nat.lt_or_ge j cs.length with h | h
    · exact h
    · simp [List.getElem?_eq_none h] at hc
  have hfired : fired (exec (spawn (empty : World T) cs) sched).w := by
    obtain ⟨r, hr⟩ := resolver_finishes empty cs sched j0 c0 h0 hr0 (hf1 j0 (hlen j0 c0 h0))
    obtain ⟨c', ht⟩ := outcome_eq_some hr
    have hcc : c0 = c' := by
      have := exec_call empty cs sched j0 _ ht
      simpa using h0.symm.trans this
    subst hcc
    have hfin := (hinv.2.1 j0 _ ht).2.2.2.2.1 r rfl
    have hvp : (exec (spawn (empty : World T) cs) sched).w.f.vp ≠ none ∨
        fired (exec (spawn (empty : World T) cs) sched).w := by
      cases c0 <;> simp [Call.isResolver] at hr0 <;> simp only [FinOk] at hfin
      · rcases hfin with ⟨_, _, h⟩ | ⟨_, h⟩
        · exact Or.inr h
        · exact Or.inl h
      · rcases hfin with ⟨_, _, h⟩ | ⟨_, h⟩
        · exact Or.inr h
        · exact Or.inl h
    rcases hvp with hvp | hf
    · rcases hpend hvp with hf | ⟨j, u, hu, hfu⟩
      · exact hf
      · exfalso
        have hcu := exec_call empty cs sched j u hu
        have hru : u.call.isResolver = true := by
          simp [inFlight] at hfu
          exact hfu.1
        obtain ⟨r', hr'⟩ := resolver_finishes empty cs sched j u.call hcu hru
          (hf1 j (hlen j _ hcu))
        obtain ⟨c'', ht'⟩ := outcome_eq_some hr'
        rw [hu] at ht'
        obtain rfl := Option.some.inj ht'
        simp [inFlight] at hfu
    · exact hf
  refine ⟨hfired, ?_⟩
  intro j hj
  rw [exec_append]
  have h1 := remainingAt_exec_of_enabled (fun s : Sys T => Inv s ∧ fired s.w)
    (by
      intro s k hs
      refine ⟨inv_sysStep hs.1 k, ?_⟩
      exact fired_mono (exec_le hs.1 [k]) hs.2)
    j
    (by
      intro s t hs ht hpc
      exact step_enabled_of_fired (hs.1.2.1 j t ht) hs.2 hpc)
    (exec (spawn (empty : World T) cs) sched) ⟨hinv, hfired⟩ later
  have h2 := remainingAt_exec_le (spawn (empty : World T) cs) sched j
  have h3 := remainingAt_spawn (empty : World T) cs j
  have h4 := hf2 j hj
  apply outcome_of_remainingAt_zero
  · rw [exec_length, exec_length]; simpa [spawn] using hj
  · omega

/-- C11.  Start from an unresolved future, let any number of calls of `Done`,
`Wait`, `Get`, `TryResolve` and `Resolve` run, their atomic actions — the
load, the compare-and-swap and the second load of `done` among them —
interleaved by an arbitrary schedule, and stop anywhere.  Then: a channel
found in the done pointer stays there for ever, so at most one channel is ever
published; every thread to which `done` has returned a channel holds the
published one, and so does every finished `Done`; the only channel that is
ever closed is the published one; a resolver about to `close` closes the
published channel, without panic, and finishes successfully; once the signal
is fired no thread is parked; and if there is a resolver among the calls, then
as soon as every thread has been given seven actions the signal is fired, and
after seven more actions each every call has finished with its proper result,
so no observer is left waiting. -/
theorem one_signal_for_all (cs : List (Call T)) (sched : List Nat) :
    (∀ c, (exec (spawn (empty : World T) cs) sched).w.f.dp = some c →
      ∀ later, (exec (spawn (empty : World T) cs) (sched ++ later)).w.f.dp = some c) ∧
    (∀ (j : Nat) t c, (exec (spawn (empty : World T) cs) sched).ts[j]? = some t →
      t.pc = .gotChan c → (exec (spawn (empty : World T) cs) sched).w.f.dp = some c) ∧
    (∀ (j : Nat) c, outcome (exec (spawn (empty : World T) cs) sched) j = some (.ret (.chan c)) →
      (exec (spawn (empty : World T) cs) sched).w.f.dp = some c) ∧
    (∀ c ∈ (exec (spawn (empty : World T) cs) sched).w.closed,
      (exec (spawn (empty : World T) cs) sched).w.f.dp = some c) ∧
    (∀ (j : Nat) t c, (exec (spawn (empty : World T) cs) sched).ts[j]? = some t →
      t.pc = .gotChan c → t.call.isResolver = true →
      step (exec (spawn (empty : World T) cs) sched).w t =
        some ({ (exec (spawn (empty : World T) cs) sched).w with closed := [c] },
          ⟨t.call, .fin t.call.success⟩)) ∧
    (fired (exec (spawn (empty : World T) cs) sched).w →
      ∀ (j : Nat) t, (exec (spawn (empty : World T) cs) sched).ts[j]? = some t →
        (∀ r, t.pc ≠ .fin r) → ∃ p, step (exec (spawn (empty : World T) cs) sched).w t = some p) ∧
    (∀ (j0 : Nat) c0 later, cs[j0]? = some c0 → c0.isResolver = true →
      (∀ j < cs.length, 7 ≤ sched.count j) → (∀ j < cs.length, 7 ≤ later.count j) →
      fired (exec (spawn (empty : World T) cs) sched).w ∧
      ∀ (j : Nat) cj, cs[j]? = some cj →
        ∃ r, outcome (exec (spawn (empty : World T) cs) (sched ++ later)) j = some r ∧
          FinOk (exec (spawn (empty : World T) cs) (sched ++ later)).w cj r) := by
  have hinv := inv_of_initial (Or.inl rfl : Initial (empty : World T)) cs sched
  obtain ⟨⟨k1, k2, k3⟩, oks, fls, uniq⟩ := hinv
  refine ⟨?_, ?_, ?_, k1, ?_, ?_, ?_⟩
  · intro c hc later
    rw [exec_append]
    exact (exec_le (inv_of_initial (Or.inl rfl) cs sched) later).2.1 c hc
  · intro j t c ht hpc
    exact (oks j t ht).2.2.1 c hpc
  · intro j c ho
    obtain ⟨cl, ht⟩ := outcome_eq_some ho
    have hfin := (oks j _ ht).2.2.2.2.1 _ rfl
    cases cl <;> simp only [FinOk] at hfin
    · rcases hfin with ⟨h, _⟩ | ⟨h, _⟩ <;> simp at h
    · rcases hfin with ⟨h, _⟩ | ⟨h, _⟩ <;> simp at h
    · obtain ⟨x, h, _⟩ := hfin; simp at h
    · simp at hfin
    · obtain ⟨x, h, hx⟩ := hfin
      simp at h
      rw [h]; exact hx
  · intro j t c ht hpc hr
    have hfl : inFlight t = true := by simp [inFlight, hr, hpc]
    have hcl := fls j t ht hfl
    rcases t with ⟨cl, pc⟩
    simp only at hpc hr
    subst hpc
    cases cl <;> simp [Call.isResolver] at hr <;>
      simp [step, closeChan, isClosed, hcl, Call.success]
  · intro hf j t ht hpc
    exact step_enabled_of_fired (oks j t ht) hf hpc
  · intro j0 c0 later h0 hr0 hf1 hf2
    obtain ⟨hfired, hall⟩ := all_finish cs j0 c0 h0 hr0 sched later hf1 hf2
    refine ⟨hfired, ?_⟩
    intro j cj hcj
    have hj : j < cs.length := by
      rcases Nat.lt_or_ge j cs.length with h | h
      · exact h
      · simp [List.getElem?_eq_none h] at hcj
    obtain ⟨r, hr⟩ := hall j hj
    refine ⟨r, hr, ?_⟩
    obtain ⟨c', ht⟩ := outcome_eq_some hr
    have hcc : cj = c' := by
      have := exec_call empty cs (sched ++ later) j _ ht
      simpa using hcj.symm.trans this
    subst hcc
    exact ((inv_of_initial (Or.inl rfl) cs (sched ++ later)).2.1 j _ ht).2.2.2.2.1 r rfl

/-- A `Done`, a `Wait` and a `Get` race for the first access to the signal of an
empty future — each has loaded a nil done pointer before any of them
publishes a channel — while `TryResolve(9)` resolves it.  After two rounds of
seven actions for everybody the `Wait` has returned. -/
theorem one_signal_for_all_witness :
    fired (exec (spawn (empty : World Nat) [.Done, .Wait, .Get, .TryResolve 9])
      ([0, 1, 2, 2, 3] ++ (List.replicate 7 [0, 1, 2, 3]).flatten)).w ∧
    ∃ r, outcome (exec (spawn (empty : World Nat) [.Done, .Wait, .Get, .TryResolve 9])
      (([0, 1, 2, 2, 3] ++ (List.replicate 7 [0, 1, 2, 3]).flatten) ++
        (List.replicate 7 [0, 1, 2, 3]).flatten)) 1 = some r ∧
      FinOk (exec (spawn (empty : World Nat) [.Done, .Wait, .Get, .TryResolve 9])
        (([0, 1, 2, 2, 3] ++ (List.replicate 7 [0, 1, 2, 3]).flatten) ++
          (List.replicate 7 [0, 1, 2, 3]).flatten)).w .Wait r := by
  have h := (one_signal_for_all (T := Nat) [.Done, .Wait, .Get, .TryResolve 9]
    ([0, 1, 2, 2, 3] ++ (List.replicate 7 [0, 1, 2, 3]).flatten)).2.2.2.2.2.2
    3 (.TryResolve 9) (List.replicate 7 [0, 1, 2, 3]).flatten rfl rfl
    (by decide) (by decide)
  exact ⟨h.1, h.2 1 .Wait rfl⟩

end GoFuture
